import Mathlib

/-!
# Verification of the tz_web version-diff engine and Excel importer

A shallow embedding of the repository's two core computations:

* the **version-diff engine** of the backend compare route
  (`GET /api/specs/:id/versions/compare`): given the persisted step and
  transition rows of two versions, compute added/removed/changed steps and
  added/removed transitions;
* the **spreadsheet importer** of the frontend (`App.jsx`): column
  resolution, row extraction, free-text transition extraction
  (`extractTransitionsFromText`) and edge synthesis;
* the **spec/version lifecycle** routes: create-spec transaction and fork.

JavaScript `Map` objects are embedded as association lists with JS
insertion-order semantics (`set` replaces in place, otherwise appends).
Nullable database columns are `Option String`; the JS idiom `x || ''`
on such a value is `Option.getD "" ` (both `null` and `""` are falsy).
-/

set_option maxRecDepth 8000

namespace TzWeb

/-- JS `Map.set m k v`: replace the value in place when the key is present,
otherwise append the binding (JS maps keep first-insertion order). -/
def mapSet {κ α : Type} [DecidableEq κ] (m : List (κ × α)) (k : κ) (v : α) :
    List (κ × α) :=
  if m.any (fun p => p.1 = k) then
    m.map (fun p => if p.1 = k then (k, v) else p)
  else
    m ++ [(k, v)]

/-- JS `Map.get m k`: the bound value, `none` for `undefined`. -/
def mapGet {κ α : Type} [DecidableEq κ] (m : List (κ × α)) (k : κ) : Option α :=
  (m.find? (fun p => p.1 = k)).map (fun p => p.2)

/-- The keys of an association list are pairwise distinct. -/
def NodupKeys {κ α : Type} (m : List (κ × α)) : Prop :=
  (m.map Prod.fst).Nodup

/-! ## Data model: persisted step and transition rows (schema `SpecStep`,
`SpecStepTransition`).  `type` is the `StepType` enum as the string Prisma
hands to JS; `description` and `label` are nullable columns. -/

structure DbStep where
  id : Nat
  stepKey : String
  type : String
  title : String
  description : Option String
  posX : Int
  posY : Int
deriving DecidableEq, Repr

structure DbTransition where
  fromStepId : Nat
  toStepId : Nat
  label : Option String
deriving DecidableEq, Repr

/-- The snapshot of one version: its step rows and transition rows. -/
structure Snapshot where
  steps : List DbStep
  transitions : List DbTransition
deriving DecidableEq, Repr

/-- One entry of `steps.added` / `steps.removed` in the compare response. -/
structure StepInfo where
  stepKey : String
  title : String
  description : Option String
  type : String
deriving DecidableEq, Repr

/-- One entry of `steps.changed`: the before/after tuple. -/
structure ChangedStep where
  stepKey : String
  fromTitle : String
  fromDescription : Option String
  fromType : String
  toTitle : String
  toDescription : Option String
  toType : String
deriving DecidableEq, Repr

/-- One entry of `edges.added` / `edges.removed`. -/
structure EdgeInfo where
  fromKey : String
  toKey : String
  label : Option String
deriving DecidableEq, Repr

structure StructuralDelta where
  stepsAdded : List StepInfo
  stepsRemoved : List StepInfo
  stepsChanged : List ChangedStep
  edgesAdded : List EdgeInfo
  edgesRemoved : List EdgeInfo
deriving DecidableEq, Repr

/-! ## Diff engine (compare route of the specs router) -/

/-- `fromStepsByKey` / `toStepsByKey`: the `Map` from `stepKey` to the row. -/
def stepsByKey (steps : List DbStep) : List (String × DbStep) :=
  steps.foldl (fun m s => mapSet m s.stepKey s) []

/-- The compare route's changed test:
`fromStep.title !== toStep.title || (fromStep.description || '') !==
(toStep.description || '') || fromStep.type !== toStep.type`. -/
def stepChangedOn (f t : DbStep) : Bool :=
  decide (f.title ≠ t.title) ||
    decide (f.description.getD "" ≠ t.description.getD "") ||
    decide (f.type ≠ t.type)

/-- `fromIdToKey` / `toIdToKey`: the `Map` from step surrogate id to `stepKey`. -/
def idToKeyMap (steps : List DbStep) : List (Nat × String) :=
  steps.foldl (fun m s => mapSet m s.id s.stepKey) []

/-- `buildEdgeKey(fromKey, toKey, label)` = `` `${fromKey}->${toKey}|${label || ''}` ``. -/
def buildEdgeKey (fromKey toKey : String) (label : Option String) : String :=
  fromKey ++ "->" ++ toKey ++ "|" ++ label.getD ""

/-- One iteration of the edge-map building loop: resolve both endpoint ids
to step keys, skip the transition when either is `undefined` or falsy
(`if (!fromKey || !toKey) return`), otherwise `set` under `buildEdgeKey`. -/
def edgeFoldStep (steps : List DbStep) (m : List (String × EdgeInfo))
    (tr : DbTransition) : List (String × EdgeInfo) :=
  match mapGet (idToKeyMap steps) tr.fromStepId,
      mapGet (idToKeyMap steps) tr.toStepId with
  | some fromKey, some toKey =>
    if fromKey = "" || toKey = "" then m
    else mapSet m (buildEdgeKey fromKey toKey tr.label) ⟨fromKey, toKey, tr.label⟩
  | _, _ => m

/-- `fromEdgesSet` / `toEdgesSet`: the `Map` from the edge key string to the
edge value. -/
def edgesByKey (steps : List DbStep) (transitions : List DbTransition) :
    List (String × EdgeInfo) :=
  transitions.foldl (edgeFoldStep steps) []

/-- The diff of the compare route: two passes over the step maps
(added+changed over `to`, removed over `from`) and two passes over the edge
maps (added over `to`, removed over `from`). -/
def diff (fromSnap toSnap : Snapshot) : StructuralDelta :=
  let fromSteps := stepsByKey fromSnap.steps
  let toSteps := stepsByKey toSnap.steps
  let fromEdges := edgesByKey fromSnap.steps fromSnap.transitions
  let toEdges := edgesByKey toSnap.steps toSnap.transitions
  { stepsAdded := toSteps.filterMap (fun p =>
      if (mapGet fromSteps p.1).isNone then
        some ⟨p.1, p.2.title, p.2.description, p.2.type⟩
      else none)
    stepsRemoved := fromSteps.filterMap (fun p =>
      if (mapGet toSteps p.1).isNone then
        some ⟨p.1, p.2.title, p.2.description, p.2.type⟩
      else none)
    stepsChanged := toSteps.filterMap (fun p =>
      match mapGet fromSteps p.1 with
      | none => none
      | some f =>
        if stepChangedOn f p.2 then
          some ⟨p.1, f.title, f.description, f.type,
                p.2.title, p.2.description, p.2.type⟩
        else none)
    edgesAdded := toEdges.filterMap (fun p =>
      if (mapGet fromEdges p.1).isNone then some p.2 else none)
    edgesRemoved := fromEdges.filterMap (fun p =>
      if (mapGet toEdges p.1).isNone then some p.2 else none) }

/-- The all-empty structural delta. -/
def emptyDelta : StructuralDelta := ⟨[], [], [], [], []⟩

/-! ### Tuple view of transitions

The spec describes transition identity as the tuple
`(fromKey, toKey, label)` with an absent label normalised to `""`.  These
definitions give that view of a snapshot so it can be compared with what the
code (which keys transitions by the concatenated string
`fromKey ++ "->" ++ toKey ++ "|" ++ label`) actually reports. -/

/-- The normalised `(fromKey, toKey, label)` tuple of a reported edge. -/
def normEdge (e : EdgeInfo) : String × String × String :=
  (e.fromKey, e.toKey, e.label.getD "")

/-- The string the code uses to identify a tuple (`buildEdgeKey`). -/
def encodeTuple (u : String × String × String) : String :=
  u.1 ++ "->" ++ u.2.1 ++ "|" ++ u.2.2

/-- Resolve one transition row to its normalised tuple, exactly as the
compare route resolves it (skipping rows the route skips). -/
def resolveTuple (steps : List DbStep) (tr : DbTransition) :
    Option (String × String × String) :=
  match mapGet (idToKeyMap steps) tr.fromStepId,
      mapGet (idToKeyMap steps) tr.toStepId with
  | some fromKey, some toKey =>
    if fromKey = "" || toKey = "" then none
    else some (fromKey, toKey, tr.label.getD "")
  | _, _ => none

/-- All normalised transition tuples of a snapshot. -/
def edgeTuples (s : Snapshot) : List (String × String × String) :=
  s.transitions.filterMap (resolveTuple s.steps)

/-! ## Fork route (`POST /api/specs/:id/versions/:versionNumber/fork`)

The loop copies each step row into the new version with a database-fresh
surrogate id, keeping its `stepKey` unless that key is falsy, in which case
the code substitutes a fresh `uuidv4()` (`stepKey: step.stepKey || uuidv4()`);
`stepIdMap` records old id → new id; the transition loop then copies each
transition with remapped endpoint ids.  `newId` and `uuid` model the
database's id sequence and the uuid generator, indexed by loop position; a
transition whose endpoint is missing from `stepIdMap` makes the create call
(and hence the whole transaction) fail, modelled as `none`. -/

def forkSteps (newId : Nat → Nat) (uuid : Nat → String) :
    Nat → List DbStep → List DbStep
  | _, [] => []
  | i, s :: rest =>
    { s with id := newId i,
             stepKey := if s.stepKey = "" then uuid i else s.stepKey }
      :: forkSteps newId uuid (i + 1) rest

def forkIdMapAux (newId : Nat → Nat) :
    List (Nat × Nat) → Nat → List DbStep → List (Nat × Nat)
  | acc, _, [] => acc
  | acc, i, s :: rest => forkIdMapAux newId (mapSet acc s.id (newId i)) (i + 1) rest

/-- `stepIdMap`: old step id → new step id. -/
def forkIdMap (newId : Nat → Nat) (steps : List DbStep) : List (Nat × Nat) :=
  forkIdMapAux newId [] 0 steps

def forkTransitions (idMap : List (Nat × Nat)) :
    List DbTransition → Option (List DbTransition)
  | [] => some []
  | tr :: rest =>
    match mapGet idMap tr.fromStepId, mapGet idMap tr.toStepId with
    | some f, some t =>
      (forkTransitions idMap rest).map (fun trs => ⟨f, t, tr.label⟩ :: trs)
    | _, _ => none

/-- The snapshot of the freshly forked version. -/
def forkSnapshot (newId : Nat → Nat) (uuid : Nat → String) (snap : Snapshot) :
    Option Snapshot :=
  (forkTransitions (forkIdMap newId snap.steps) snap.transitions).map
    (fun trs => ⟨forkSteps newId uuid 0 snap.steps, trs⟩)

/-- The step fields the diff engine compares (plus position), shared between
an original row and its forked copy. -/
def StepSim (s t : DbStep) : Prop :=
  t.stepKey = s.stepKey ∧ t.title = s.title ∧
    t.description = s.description ∧ t.type = s.type

/-- Entries of two step maps paired up: same key, `StepSim`-related rows. -/
def PairSim (p q : String × DbStep) : Prop :=
  q.1 = p.1 ∧ StepSim p.2 q.2

/-! ## Create-spec transaction (`POST /api/specs`)

The route creates the `Spec` row, creates the initial version
(`versionNumber: 1`, `status: 'draft'`, `comment: 'Первая версия'`) and then
updates the spec's `currentVersionId` to the new version's id, all inside one
`prisma.$transaction`; the embedding performs the three writes as one step on
a database value.  The returned `spec` is the row as `create` returned it
(before the update), exactly as the route's response. -/

structure SpecRow where
  id : Nat
  title : String
  description : Option String
  createdById : Option Nat
  currentVersionId : Option Nat
deriving DecidableEq, Repr

structure SpecVersionRow where
  id : Nat
  specId : Nat
  versionNumber : Nat
  status : String
  createdById : Option Nat
  basedOnVersionId : Option Nat
  comment : Option String
deriving DecidableEq, Repr

structure Db where
  specs : List SpecRow
  versions : List SpecVersionRow
  nextSpecId : Nat
  nextVersionId : Nat
deriving DecidableEq, Repr

def createSpecTxn (db : Db) (title : String) (description : Option String)
    (createdById : Option Nat) : Db × SpecRow × SpecVersionRow :=
  let spec : SpecRow := ⟨db.nextSpecId, title, description, createdById, none⟩
  let version : SpecVersionRow :=
    ⟨db.nextVersionId, spec.id, 1, "draft", createdById, none,
     some "Первая версия"⟩
  let specs2 := (db.specs ++ [spec]).map (fun r =>
    if r.id = spec.id then { r with currentVersionId := some version.id } else r)
  (⟨specs2, db.versions ++ [version], db.nextSpecId + 1, db.nextVersionId + 1⟩,
   spec, version)

/-! ## Excel importer (frontend `App.jsx`, `handleExcelImport`)

Cells are modelled as the strings `String(cell)` the code works with.
`toLowerCase()` is modelled for the alphabets the heuristics use (ASCII and
the basic Cyrillic block, `Ё`); JS regex classes `\\s` and `\\d` are modelled
by ASCII whitespace and the decimal digits, which covers the cell text the
importer scans. -/

/-- JS `toLowerCase` on one character (ASCII `A`-`Z`, Cyrillic `А`-`Я`, `Ё`). -/
def jsLowerChar (c : Char) : Char :=
  if 'A' ≤ c ∧ c ≤ 'Z' then Char.ofNat (c.toNat + 32)
  else if 'А' ≤ c ∧ c ≤ 'Я' then Char.ofNat (c.toNat + 32)
  else if c = 'Ё' then 'ё'
  else c

def jsToLower (s : String) : String := String.mk (s.data.map jsLowerChar)

/-- Does the second list start with the first (the pattern)? -/
def charsStartWith : List Char → List Char → Bool
  | [], _ => true
  | _ :: _, [] => false
  | p :: ps, c :: cs => p = c && charsStartWith ps cs

/-- Does the second list contain the first (the pattern) as contiguous text? -/
def charsContain (pat : List Char) : List Char → Bool
  | [] => charsStartWith pat []
  | c :: cs => charsStartWith pat (c :: cs) || charsContain pat cs

/-- JS `s.startsWith(pat)`. -/
def strStartsWith (s pat : String) : Bool := charsStartWith pat.data s.data

/-- JS `s.includes(pat)`. -/
def strIncludes (s pat : String) : Bool := charsContain pat.data s.data

inductive ImportError
  | noHeaderFound
  | missingRequiredColumns
  | noStepsFound
deriving DecidableEq, Repr

/-- The resolved column indices (`idxNum` … `idxDevNote`); a missing optional
column is `none` (JS `-1`). -/
structure Cols where
  idxNum : Nat
  idxTitle : Nat
  idxDescr : Option Nat
  idxCrit : Option Nat
  idxErr : Option Nat
  idxDevNote : Option Nat
deriving DecidableEq, Repr

/-- `s === "№" || s.startsWith("№")` (on the lowercased cell). -/
def numColPred (s : String) : Bool := s = "№" || strStartsWith s "№"

def titleColPred (s : String) : Bool := strIncludes s "шаг сценария"

def descrColPred (s : String) : Bool := strIncludes s "описание шага"

def critColPred (s : String) : Bool := strIncludes s "критерий успешности"

def errColPred (s : String) : Bool := strIncludes s "обработка ошибок"

def devNoteColPred (s : String) : Bool := strIncludes s "примечание для разработчика"

/-- `header.findIndex((c) => predicate(String(c).toLowerCase()))`,
`none` for `-1`. -/
def findColAux (p : String → Bool) : Nat → List String → Option Nat
  | _, [] => none
  | i, c :: rest => if p (jsToLower c) then some i else findColAux p (i + 1) rest

def findCol (header : List String) (p : String → Bool) : Option Nat :=
  findColAux p 0 header

/-- Column resolution: all six `findCol` calls, then
`if (idxNum === -1 || idxTitle === -1) throw`. -/
def resolveColumns (header : List String) : Except ImportError Cols :=
  match findCol header numColPred, findCol header titleColPred with
  | some iNum, some iTitle =>
    .ok ⟨iNum, iTitle, findCol header descrColPred, findCol header critColPred,
         findCol header errColPred, findCol header devNoteColPred⟩
  | _, _ => .error .missingRequiredColumns

/-- `row[i]` as the string the code sees (`undefined` behaves as `""` in
every use the extraction makes of it). -/
def cellAt (row : List String) (i : Nat) : String := (row.get? i).getD ""

/-- An optional column's cell: `idx !== -1 ? row[idx] : ""`. -/
def optCell (row : List String) : Option Nat → String
  | some j => cellAt row j
  | none => ""

/-- `/\\d/.test(s)`. -/
def hasDigit (s : String) : Bool := s.data.any (fun c => '0' ≤ c ∧ c ≤ '9')

/-- One extracted table row (steps.push of step 6 of the importer). -/
structure RawStep where
  key : String
  title : String
  description : String
  originalIndex : Nat
  rawDescr : String
  rawCrit : String
  rawDevNote : String
deriving DecidableEq, Repr

/-- Extraction of one data row: skip empty rows, rows with a blank or
digit-free number cell; title falls back to `"Шаг {num}"`; the composite
description joins the description, `"Критерий: "` and `"Ошибки: "` parts with
blank lines, keeping only the non-empty parts. -/
def extractRow (cols : Cols) (i : Nat) (row : List String) : Option RawStep :=
  if row.isEmpty then none
  else
    let numStr := (cellAt row cols.idxNum).trim
    if numStr = "" then none
    else if ¬ hasDigit numStr then none
    else
      let titleRaw := cellAt row cols.idxTitle
      let title := if titleRaw.trim = "" then "Шаг " ++ numStr else titleRaw.trim
      let rawDescr := optCell row cols.idxDescr
      let rawCrit := optCell row cols.idxCrit
      let rawErr := optCell row cols.idxErr
      let rawDevNote := optCell row cols.idxDevNote
      let parts := (if rawDescr ≠ "" then [rawDescr.trim] else [])
        ++ (if rawCrit ≠ "" then ["Критерий: " ++ rawCrit.trim] else [])
        ++ (if rawErr ≠ "" then ["Ошибки: " ++ rawErr.trim] else [])
      let description := String.intercalate "\n\n" (parts.filter (fun p => p ≠ ""))
      some ⟨numStr, title, description, i, rawDescr, rawCrit, rawDevNote⟩

/-! ### Free-text transition extraction
(`extractTransitionsFromText`, regex `/переход к шаг[ау]\\s+(\\d+)/gi`) -/

structure TextTrans where
  targetKey : String
  label : String
deriving DecidableEq, Repr

def transPatChars : List Char := "переход к шаг".data

/-- Case-insensitive strip of the (lowercase) pattern from the head. -/
def stripCI : List Char → List Char → Option (List Char)
  | [], l => some l
  | _ :: _, [] => none
  | p :: ps, c :: cs => if jsLowerChar c = p then stripCI ps cs else none

/-- Try the regex at the head of `l`: the literal pattern, one of `а`/`у`,
one or more whitespace, one or more digits (all greedy, as the regex
matches).  Returns the captured digits and the match length. -/
def matchAt (l : List Char) : Option (String × Nat) :=
  match stripCI transPatChars l with
  | none => none
  | some rest1 =>
    match rest1 with
    | [] => none
    | c :: rest2 =>
      if jsLowerChar c = 'а' || jsLowerChar c = 'у' then
        let ws := rest2.takeWhile (fun ch => ch.isWhitespace)
        if ws.isEmpty then none
        else
          let rest3 := rest2.drop ws.length
          let ds := rest3.takeWhile (fun ch => ch.isDigit)
          if ds.isEmpty then none
          else some (String.mk ds, transPatChars.length + 1 + ws.length + ds.length)
      else none

def trimChars (l : List Char) : List Char :=
  ((l.dropWhile (fun c => c.isWhitespace)).reverse.dropWhile
    (fun c => c.isWhitespace)).reverse

/-- The class of the label-cleaning regex `[\\s\\.\\,\\;\\:\\-]+$`. -/
def isTailPunct (c : Char) : Bool :=
  c.isWhitespace || c = '.' || c = ',' || c = ';' || c = ':' || c = '-'

/-- The label derived from up to 80 characters before the match: trimmed,
trailing punctuation removed, trimmed again, and shortened to an ellipsis
plus the last 60 characters when longer than 60. -/
def makeLabel (text : List Char) (idx : Nat) : String :=
  let contextStart := idx - 80
  let slice := (text.drop contextStart).take (idx - contextStart)
  let c1 := trimChars slice
  let c2 := (c1.reverse.dropWhile isTailPunct).reverse
  let c3 := trimChars c2
  let c4 := if c3.length > 60 then '…' :: c3.drop (c3.length - 60) else c3
  String.mk c4

/-- The `regex.exec` loop: try each position, jump over a match
(`lastIndex`), advance one character on failure. -/
def extractGo (text : List Char) : Nat → Nat → List TextTrans
  | 0, _ => []
  | fuel + 1, i =>
    match matchAt (text.drop i) with
    | some (target, len) =>
      ⟨target, makeLabel text i⟩ :: extractGo text fuel (i + len)
    | none =>
      if i < text.length then extractGo text fuel (i + 1) else []

def extractTransitionsFromText (rawText : String) : List TextTrans :=
  extractGo rawText.data (rawText.data.length + 1) 0

/-- The text mined for transitions: raw description, raw criterion and raw
developer note, the first two newline-terminated when non-empty. -/
def textForParsing (s : RawStep) : String :=
  (if s.rawDescr ≠ "" then s.rawDescr ++ "\n" else "")
    ++ (if s.rawCrit ≠ "" then s.rawCrit ++ "\n" else "")
    ++ s.rawDevNote

def stepTransitions (s : RawStep) : List TextTrans :=
  extractTransitionsFromText (textForParsing s)

/-! ### Node construction and edge synthesis -/

structure Node where
  id : String
  title : String
  description : String
  realType : String
  posX : Nat
  posY : Nat
deriving DecidableEq, Repr

/-- `t.includes("проверка") || t.includes("проверяется")` on the lowercased
title. -/
def condKeyword (title : String) : Bool :=
  strIncludes (jsToLower title) "проверка" ||
    strIncludes (jsToLower title) "проверяется"

/-- Step 8 of the importer: first sorted step is `start`, last is `end`,
otherwise `condition` on a checking keyword in the title, else `action`. -/
def buildNodes (steps : List RawStep) : List Node :=
  steps.enum.map (fun p =>
    let realType :=
      if p.1 = 0 then "start"
      else if p.1 = steps.length - 1 then "end"
      else if condKeyword p.2.title then "condition"
      else "action"
    { id := p.2.key, title := p.2.title, description := p.2.description,
      realType := realType, posX := 100 + p.1 * 60, posY := 80 + p.1 * 30 })

/-- The placeholder node synthesized for an unknown transition target. -/
def placeholderNode (targetKey : String) (numNodes : Nat) : Node :=
  { id := targetKey, title := "Шаг " ++ targetKey, description := "",
    realType := "action", posX := 400, posY := 80 + numNodes * 30 }

/-- An entry of `explicitEdges`. -/
structure Edge3 where
  fromKey : String
  toKey : String
  label : String
deriving DecidableEq, Repr

/-- The loop state while mining one step's transitions: the growing node
list, the id set, this source's `arr` of `(target, label)` pairs and the
global `explicitEdges`. -/
structure StepScan where
  nodes : List Node
  nodeIds : List String
  arr : List (String × String)
  edges : List Edge3
deriving DecidableEq, Repr

/-- One iteration of the inner `for (const tr of transitions)` loop:
skip a falsy target, synthesize a placeholder node for an unknown target,
then skip the pair when this source already has an edge to that target,
otherwise record the pair and the explicit edge. -/
def addTransStep (fromKey : String) (st : StepScan) (tr : TextTrans) : StepScan :=
  if tr.targetKey = "" then st
  else
    let st1 :=
      if st.nodeIds.contains tr.targetKey then st
      else { st with
        nodes := st.nodes ++ [placeholderNode tr.targetKey st.nodes.length],
        nodeIds := st.nodeIds ++ [tr.targetKey] }
    if st1.arr.any (fun e => e.1 = tr.targetKey) then st1
    else { st1 with
      arr := st1.arr ++ [(tr.targetKey, tr.label)],
      edges := st1.edges ++ [⟨fromKey, tr.targetKey, tr.label⟩] }

/-- The state of the outer step loop. -/
structure ImportState where
  nodes : List Node
  nodeIds : List String
  explicitEdges : List Edge3
  outgoingByFrom : List (String × List (String × String))
deriving DecidableEq, Repr

/-- The outer loop body over one step: nothing happens for a step with no
extracted transitions (`if (!transitions.length) continue`); otherwise the
inner loop runs from this source's existing `arr` and `outgoingByFrom` is
updated. -/
def processStep (st : ImportState) (step : RawStep) : ImportState :=
  let transitions := stepTransitions step
  if transitions.isEmpty then st
  else
    let arr0 := (mapGet st.outgoingByFrom step.key).getD []
    let scan := transitions.foldl (addTransStep step.key)
      ⟨st.nodes, st.nodeIds, arr0, st.explicitEdges⟩
    { nodes := scan.nodes, nodeIds := scan.nodeIds,
      explicitEdges := scan.edges,
      outgoingByFrom := mapSet st.outgoingByFrom step.key scan.arr }

/-- Steps 8–9 of the importer: build the nodes, then mine every step's text. -/
def processTransitions (steps : List RawStep) : ImportState :=
  let nodes0 := buildNodes steps
  steps.foldl processStep ⟨nodes0, nodes0.map (fun n => n.id), [], []⟩

/-- A React-Flow edge (`label: e.label || undefined`). -/
structure FlowEdge where
  id : String
  source : String
  target : String
  label : Option String
deriving DecidableEq, Repr

def consecutivePairs (steps : List RawStep) : List (RawStep × RawStep) :=
  steps.zip steps.tail

/-- Step 9.1: the explicit transitions as edges. -/
def explicitFlowEdges (es : List Edge3) : List FlowEdge :=
  es.enum.map (fun p =>
    ⟨p.2.fromKey ++ "->" ++ p.2.toKey ++ "-" ++ toString p.1,
     p.2.fromKey, p.2.toKey,
     if p.2.label = "" then none else some p.2.label⟩)

/-- Step 9.2: the plain linear chain. -/
def chainEdges (steps : List RawStep) : List FlowEdge :=
  (consecutivePairs steps).map (fun q =>
    ⟨q.1.key ++ "->" ++ q.2.key, q.1.key, q.2.key, none⟩)

/-- Steps 9.1–9.3: explicit edges, then either the full chain (no explicit
transition anywhere) or fallback edges only for pairs whose source has no
recorded outgoing transitions and whose edge key is not already taken. -/
def buildEdges (steps : List RawStep) (st : ImportState) : List FlowEdge :=
  if st.explicitEdges.isEmpty then chainEdges steps
  else
    explicitFlowEdges st.explicitEdges ++
      ((consecutivePairs steps).foldl (fun acc q =>
        let ek := q.1.key ++ "->" ++ q.2.key
        if st.outgoingByFrom.any (fun p => p.1 = q.1.key) then acc
        else if acc.2.contains ek then acc
        else (acc.1 ++ [(⟨ek, q.1.key, q.2.key, none⟩ : FlowEdge)],
              acc.2 ++ [ek]))
        ([], st.explicitEdges.map (fun e => e.fromKey ++ "->" ++ e.toKey))).1

def importEdges (steps : List RawStep) : List FlowEdge :=
  buildEdges steps (processTransitions steps)

/-- First-kept deduplication of one source's transitions by target, skipping
falsy targets, as the inner loop performs it. -/
def dedupTargets (seen : List String) : List TextTrans → List TextTrans
  | [] => []
  | tr :: rest =>
    if tr.targetKey = "" then dedupTargets seen rest
    else if seen.any (fun x => x = tr.targetKey) then dedupTargets seen rest
    else tr :: dedupTargets (seen ++ [tr.targetKey]) rest

/-! ## Association-list (JS `Map`) lemmas -/

theorem mapSet_of_not_mem {κ α : Type} [DecidableEq κ] {m : List (κ × α)} {k : κ}
    (v : α) (h : ∀ p ∈ m, p.1 ≠ k) : mapSet m k v = m ++ [(k, v)] := by
  unfold mapSet
  rw [if_neg]
  simp only [List.any_eq_true, not_exists, decide_eq_true_eq, not_and]
  intro p hp
  exact fun he => h p hp he

theorem keys_mapSet {κ α : Type} [DecidableEq κ] (m : List (κ × α)) (k : κ)
    (v : α) : (mapSet m k v).map Prod.fst =
      if m.any (fun p => p.1 = k) then m.map Prod.fst
      else m.map Prod.fst ++ [k] := by
  unfold mapSet
  split
  · rw [List.map_map]
    refine List.map_congr_left (fun p _ => ?_)
    by_cases hp : p.1 = k
    · simp [hp]
    · simp [hp]
  · simp

theorem nodupKeys_mapSet {κ α : Type} [DecidableEq κ] {m : List (κ × α)}
    (h : NodupKeys m) (k : κ) (v : α) : NodupKeys (mapSet m k v) := by
  unfold NodupKeys
  rw [keys_mapSet]
  split
  · exact h
  · rename_i hany
    simp only [List.any_eq_true, decide_eq_true_eq, not_exists, not_and] at hany
    rw [List.nodup_append]
    refine ⟨h, List.nodup_singleton _, ?_⟩
    intro x hx hy
    simp only [List.mem_singleton] at hy
    subst hy
    obtain ⟨p, hp, hpk⟩ := List.mem_map.mp hx
    exact hany p hp hpk

theorem mem_of_mem_mapSet {κ α : Type} [DecidableEq κ] {m : List (κ × α)}
    {k : κ} {v : α} {q : κ × α} (hq : q ∈ mapSet m k v) :
    q = (k, v) ∨ q ∈ m := by
  unfold mapSet at hq
  split at hq
  · obtain ⟨p, hp, hpq⟩ := List.mem_map.mp hq
    by_cases hk : p.1 = k
    · simp only [hk, if_pos] at hpq; exact Or.inl hpq.symm
    · simp only [hk, if_neg, not_false_iff] at hpq
      exact Or.inr (hpq ▸ hp)
  · rcases List.mem_append.mp hq with h | h
    · exact Or.inr h
    · simp only [List.mem_singleton] at h; exact Or.inl h

theorem key_mem_mapSet {κ α : Type} [DecidableEq κ] (m : List (κ × α))
    (k : κ) (v : α) : k ∈ (mapSet m k v).map Prod.fst := by
  rw [keys_mapSet]
  split
  · rename_i hany
    simp only [List.any_eq_true, decide_eq_true_eq] at hany
    obtain ⟨p, hp, hpk⟩ := hany
    exact List.mem_map.mpr ⟨p, hp, hpk⟩
  · simp

theorem key_mem_mapSet_of_mem {κ α : Type} [DecidableEq κ] {m : List (κ × α)}
    {k' : κ} (hk : k' ∈ m.map Prod.fst) (k : κ) (v : α) :
    k' ∈ (mapSet m k v).map Prod.fst := by
  rw [keys_mapSet]
  split
  · exact hk
  · exact List.mem_append.mpr (Or.inl hk)

theorem mapGet_eq_none_iff {κ α : Type} [DecidableEq κ] {m : List (κ × α)}
    {k : κ} : mapGet m k = none ↔ ∀ p ∈ m, p.1 ≠ k := by
  unfold mapGet
  rw [Option.map_eq_none', List.find?_eq_none]
  simp

theorem mapGet_of_mem {κ α : Type} [DecidableEq κ] {m : List (κ × α)}
    (h : NodupKeys m) {p : κ × α} (hp : p ∈ m) : mapGet m p.1 = some p.2 := by
  induction m with
  | nil => cases hp
  | cons q rest ih =>
    unfold NodupKeys at h
    simp only [List.map_cons, List.nodup_cons] at h
    rcases List.mem_cons.mp hp with he | hm
    · subst he
      unfold mapGet
      rw [List.find?_cons_of_pos _ (by simp)]
      rfl
    · have hne : q.1 ≠ p.1 := by
        intro he
        exact h.1 (he ▸ List.mem_map.mpr ⟨p, hm, rfl⟩)
      unfold mapGet
      rw [List.find?_cons_of_neg _ (by simpa using hne)]
      exact ih h.2 hm

theorem mapGet_isSome_of_key_mem {κ α : Type} [DecidableEq κ] {m : List (κ × α)}
    {k : κ} (hk : k ∈ m.map Prod.fst) : (mapGet m k).isSome := by
  obtain ⟨p, hp, hpk⟩ := List.mem_map.mp hk
  unfold mapGet
  cases hf : m.find? (fun q => q.1 = k) with
  | none =>
    rw [List.find?_eq_none] at hf
    exact absurd (by simpa using hpk) (hf p hp)
  | some q => simp

/-- A generic fold invariant. -/
theorem foldl_invariant {γ β : Type} {P : γ → Prop} (f : γ → β → γ)
    (l : List β) (init : γ) (h0 : P init)
    (hstep : ∀ acc x, x ∈ l → P acc → P (f acc x)) : P (l.foldl f init) := by
  induction l generalizing init with
  | nil => exact h0
  | cons x rest ih =>
    exact ih (f init x) (hstep init x (List.mem_cons_self x rest) h0)
      (fun acc y hy => hstep acc y (List.mem_cons_of_mem x hy))

theorem nodupKeys_stepsByKey (steps : List DbStep) : NodupKeys (stepsByKey steps) := by
  unfold stepsByKey
  exact foldl_invariant _ _ _ (by simp [NodupKeys])
    (fun acc s _ h => nodupKeys_mapSet h _ _)

theorem nodupKeys_idToKeyMap (steps : List DbStep) : NodupKeys (idToKeyMap steps) := by
  unfold idToKeyMap
  exact foldl_invariant _ _ _ (by simp [NodupKeys])
    (fun acc s _ h => nodupKeys_mapSet h _ _)

theorem nodupKeys_edgesByKey (steps : List DbStep) (trs : List DbTransition) :
    NodupKeys (edgesByKey steps trs) := by
  unfold edgesByKey
  refine foldl_invariant _ _ _ (by simp [NodupKeys]) (fun acc tr _ h => ?_)
  unfold edgeFoldStep
  cases mapGet (idToKeyMap steps) tr.fromStepId with
  | none => exact h
  | some fromKey =>
    cases mapGet (idToKeyMap steps) tr.toStepId with
    | none => exact h
    | some toKey =>
      simp only []
      split
      · exact h
      · exact nodupKeys_mapSet h _ _

/-- **C1.** For every snapshot `S`, `diff(S, S)` yields empty added, removed
and changed lists for steps and empty added and removed lists for
transitions. -/
theorem tz_C1_diff_self_empty (S : Snapshot) : diff S S = emptyDelta := by
  have hs := nodupKeys_stepsByKey S.steps
  have he := nodupKeys_edgesByKey S.steps S.transitions
  simp only [diff, emptyDelta, StructuralDelta.mk.injEq]
  refine ⟨?_, ?_, ?_, ?_, ?_⟩ <;> rw [List.filterMap_eq_nil_iff] <;> intro p hp
  · rw [mapGet_of_mem hs hp]; simp
  · rw [mapGet_of_mem hs hp]; simp
  · rw [mapGet_of_mem hs hp]; simp [stepChangedOn]
  · rw [mapGet_of_mem he hp]; simp
  · rw [mapGet_of_mem he hp]; simp

/-- **C4.** For every pair of snapshots `A` and `B`, the steps reported as
added by `diff(A, B)` are exactly the steps reported as removed by
`diff(B, A)` (even as identically ordered lists, hence equal as sets). -/
theorem tz_C4_added_removed_symmetry (A B : Snapshot) :
    (diff A B).stepsAdded = (diff B A).stepsRemoved := rfl

/-- Folding `mapSet` over pairwise-fresh keys just appends the bindings. -/
theorem foldl_mapSet_eq_append {κ α β : Type} [DecidableEq κ]
    (key : β → κ) (val : β → α) :
    ∀ (l : List β) (acc : List (κ × α)),
      (∀ b ∈ l, ∀ p ∈ acc, p.1 ≠ key b) → (l.map key).Nodup →
      l.foldl (fun m b => mapSet m (key b) (val b)) acc
        = acc ++ l.map (fun b => (key b, val b)) := by
  intro l
  induction l with
  | nil => intro acc _ _; simp
  | cons a rest ih =>
    intro acc hfresh hnd
    simp only [List.map_cons, List.nodup_cons] at hnd
    have h1 : mapSet acc (key a) (val a) = acc ++ [(key a, val a)] :=
      mapSet_of_not_mem _ (fun p hp => hfresh a (List.mem_cons_self a rest) p hp)
    simp only [List.foldl_cons, h1]
    rw [ih (acc ++ [(key a, val a)]) ?_ hnd.2]
    · simp
    · intro b hb p hp
      rcases List.mem_append.mp hp with h | h
      · exact hfresh b (List.mem_cons_of_mem a hb) p h
      · simp only [List.mem_singleton] at h
        subst h
        intro he
        have he' : key a = key b := he
        refine hnd.1 ?_
        rw [he']
        exact List.mem_map.mpr ⟨b, hb, rfl⟩

/-- With pairwise distinct step keys the step map is just the paired list. -/
theorem stepsByKey_eq {steps : List DbStep}
    (h : (steps.map DbStep.stepKey).Nodup) :
    stepsByKey steps = steps.map (fun s => (s.stepKey, s)) := by
  unfold stepsByKey
  have := foldl_mapSet_eq_append (fun s : DbStep => s.stepKey) (fun s => s)
    steps [] (by simp) h
  simpa using this

/-- **C2.** For snapshots with well-formed (pairwise distinct) step keys and
a step key present in both, the diff reports the step as changed exactly when
the two rows differ on title, description (absent and empty treated alike) or
type, with the reported entry carrying the before/after tuple; and when only
the position differs, no changed entry is reported for that key. -/
theorem tz_C2_changed_iff (A B : Snapshot)
    (hA : (A.steps.map DbStep.stepKey).Nodup)
    (hB : (B.steps.map DbStep.stepKey).Nodup)
    (s t : DbStep) (hs : s ∈ A.steps) (ht : t ∈ B.steps)
    (hk : t.stepKey = s.stepKey) :
    (((⟨s.stepKey, s.title, s.description, s.type,
        t.title, t.description, t.type⟩ : ChangedStep)
          ∈ (diff A B).stepsChanged) ↔
      (s.title ≠ t.title ∨ s.description.getD "" ≠ t.description.getD "" ∨
        s.type ≠ t.type))
    ∧ (s.title = t.title → s.description = t.description → s.type = t.type →
        ∀ c ∈ (diff A B).stepsChanged, c.stepKey ≠ s.stepKey) := by
  have hpA : ((s.stepKey, s) : String × DbStep) ∈ stepsByKey A.steps := by
    rw [stepsByKey_eq hA]
    exact List.mem_map.mpr ⟨s, hs, rfl⟩
  have hmapA : mapGet (stepsByKey A.steps) s.stepKey = some s :=
    mapGet_of_mem (nodupKeys_stepsByKey A.steps) hpA
  have hchanged : (diff A B).stepsChanged = B.steps.filterMap (fun u =>
      match mapGet (stepsByKey A.steps) u.stepKey with
      | none => none
      | some f =>
        if stepChangedOn f u then
          some ⟨u.stepKey, f.title, f.description, f.type,
                u.title, u.description, u.type⟩
        else none) := by
    simp only [diff]
    rw [stepsByKey_eq hB, List.filterMap_map]
    rfl
  have hfwd : ∀ c ∈ (diff A B).stepsChanged, c.stepKey = s.stepKey →
      stepChangedOn s t = true ∧
        c = ⟨s.stepKey, s.title, s.description, s.type,
             t.title, t.description, t.type⟩ := by
    intro c hc hck
    rw [hchanged] at hc
    obtain ⟨u, hu, hfu⟩ := List.mem_filterMap.mp hc
    split at hfu
    case _ => cases hfu
    case _ f hm =>
      by_cases hcond : stepChangedOn f u
      · rw [if_pos hcond] at hfu
        have hcu := Option.some.inj hfu
        have hukey : u.stepKey = s.stepKey := by rw [← hck, ← hcu]
        have hut : u = t :=
          List.inj_on_of_nodup_map hB hu ht (by rw [hukey, hk])
        subst hut
        rw [hukey, hmapA] at hm
        have hf : f = s := (Option.some.inj hm).symm
        subst hf
        exact ⟨hcond, by rw [← hcu, hukey]⟩
      · rw [if_neg hcond] at hfu; cases hfu
  have hcond_iff : stepChangedOn s t = true ↔
      (s.title ≠ t.title ∨ s.description.getD "" ≠ t.description.getD "" ∨
        s.type ≠ t.type) := by
    simp [stepChangedOn, or_assoc]
  constructor
  · constructor
    · intro hmem
      exact hcond_iff.mp (hfwd _ hmem rfl).1
    · intro hdiff
      rw [hchanged]
      refine List.mem_filterMap.mpr ⟨t, ht, ?_⟩
      have hms : mapGet (stepsByKey A.steps) t.stepKey = some s := by
        rw [hk]; exact hmapA
      rw [hms]
      show (if stepChangedOn s t = true then
          some (⟨t.stepKey, s.title, s.description, s.type,
            t.title, t.description, t.type⟩ : ChangedStep)
        else none) = some ⟨s.stepKey, s.title, s.description, s.type,
          t.title, t.description, t.type⟩
      rw [if_pos (hcond_iff.mpr hdiff), hk]
  · intro h1 h2 h3 c hc hck
    have := (hfwd c hc hck).1
    simp [stepChangedOn, h1, h2, h3] at this

/-- Witness for C2 at a concrete input: two single-step snapshots sharing
key `"k"` with different titles. -/
theorem tz_C2_changed_iff_witness :
    (((⟨"k", "T", (none : Option String), "action",
        "T2", some "d", "action"⟩ : ChangedStep)
          ∈ (diff ⟨[⟨1, "k", "action", "T", none, 0, 0⟩], []⟩
                  ⟨[⟨5, "k", "action", "T2", some "d", 3, 4⟩], []⟩).stepsChanged) ↔
      (("T" : String) ≠ "T2" ∨
        (none : Option String).getD "" ≠ (some "d" : Option String).getD "" ∨
        ("action" : String) ≠ "action"))
    ∧ (("T" : String) = "T2" → (none : Option String) = some "d" →
        ("action" : String) = "action" →
        ∀ c ∈ (diff ⟨[⟨1, "k", "action", "T", none, 0, 0⟩], []⟩
                    ⟨[⟨5, "k", "action", "T2", some "d", 3, 4⟩], []⟩).stepsChanged,
          c.stepKey ≠ "k") :=
  tz_C2_changed_iff
    ⟨[⟨1, "k", "action", "T", none, 0, 0⟩], []⟩
    ⟨[⟨5, "k", "action", "T2", some "d", 3, 4⟩], []⟩
    (by decide) (by decide)
    ⟨1, "k", "action", "T", none, 0, 0⟩ ⟨5, "k", "action", "T2", some "d", 3, 4⟩
    (by decide) (by decide) rfl

/-! ## C3: transition identity -/

theorem exists_of_mapGet_eq_some {κ α : Type} [DecidableEq κ]
    {m : List (κ × α)} {k : κ} {v : α} (h : mapGet m k = some v) :
    ∃ p ∈ m, p.1 = k ∧ p.2 = v := by
  unfold mapGet at h
  cases hf : m.find? (fun p => p.1 = k) with
  | none => rw [hf] at h; cases h
  | some p =>
    rw [hf] at h
    exact ⟨p, List.mem_of_find?_eq_some hf,
      by simpa using List.find?_some hf, by simpa using h⟩

/-- One edge-loop iteration, phrased through the tuple resolution. -/
theorem edgeFoldStep_eq (steps : List DbStep) (tr : DbTransition)
    (m : List (String × EdgeInfo)) :
    edgeFoldStep steps m tr =
      match resolveTuple steps tr with
      | none => m
      | some u => mapSet m (encodeTuple u) ⟨u.1, u.2.1, tr.label⟩ := by
  unfold edgeFoldStep resolveTuple
  cases mapGet (idToKeyMap steps) tr.fromStepId with
  | none => rfl
  | some fromKey =>
    cases mapGet (idToKeyMap steps) tr.toStepId with
    | none => rfl
    | some toKey =>
      by_cases h : (fromKey = "" || toKey = "") = true
      · simp only [h, if_true]
      · simp only [h, if_false]
        rfl

theorem resolveTuple_label {steps : List DbStep} {tr : DbTransition}
    {u : String × String × String} (h : resolveTuple steps tr = some u) :
    u.2.2 = tr.label.getD "" := by
  unfold resolveTuple at h
  cases h1 : mapGet (idToKeyMap steps) tr.fromStepId with
  | none => rw [h1] at h; cases h
  | some fromKey =>
    cases h2 : mapGet (idToKeyMap steps) tr.toStepId with
    | none => rw [h1, h2] at h; cases h
    | some toKey =>
      rw [h1, h2] at h
      have h' : (if (fromKey = "" || toKey = "") = true then none
          else some (fromKey, toKey, tr.label.getD "")) = some u := h
      by_cases hc : (fromKey = "" || toKey = "") = true
      · rw [if_pos hc] at h'
        cases h'
      · rw [if_neg hc] at h'
        rw [← Option.some.inj h']

/-- Every entry of the edge map is keyed by the encoding of its normalised
tuple, and that tuple is one of the snapshot's resolved tuples. -/
theorem edgesByKey_entry (steps : List DbStep) (trs : List DbTransition) :
    ∀ p ∈ edgesByKey steps trs,
      p.1 = encodeTuple (normEdge p.2) ∧
        normEdge p.2 ∈ trs.filterMap (resolveTuple steps) := by
  unfold edgesByKey
  refine foldl_invariant
    (P := fun m => ∀ p ∈ m, p.1 = encodeTuple (normEdge p.2) ∧
      normEdge p.2 ∈ trs.filterMap (resolveTuple steps))
    (edgeFoldStep steps) trs [] (by intro p hp; cases hp) ?_
  intro acc tr htr hacc p hp
  rw [edgeFoldStep_eq] at hp
  cases hr : resolveTuple steps tr with
  | none => rw [hr] at hp; exact hacc p hp
  | some u =>
    rw [hr] at hp
    rcases mem_of_mem_mapSet hp with he | hm
    · subst he
      have hnorm : normEdge (⟨u.1, u.2.1, tr.label⟩ : EdgeInfo) = u := by
        unfold normEdge
        rw [← resolveTuple_label hr]
      refine ⟨by rw [hnorm], ?_⟩
      rw [hnorm]
      exact List.mem_filterMap.mpr ⟨tr, htr, hr⟩
    · exact hacc p hm

/-- Every resolved tuple's encoding is a key of the edge map. -/
theorem encode_mem_keys_edgesByKey (steps : List DbStep) :
    ∀ (trs : List DbTransition) (acc : List (String × EdgeInfo))
      (u : String × String × String), u ∈ trs.filterMap (resolveTuple steps) →
      encodeTuple u ∈ (trs.foldl (edgeFoldStep steps) acc).map Prod.fst := by
  intro trs
  induction trs with
  | nil => intro acc u hu; simp at hu
  | cons tr rest ih =>
    intro acc u hu
    simp only [List.foldl_cons]
    rw [List.filterMap_cons] at hu
    cases hr : resolveTuple steps tr with
    | none => rw [hr] at hu; exact ih _ u hu
    | some u0 =>
      rw [hr] at hu
      rcases List.mem_cons.mp hu with he | hm
      · subst he
        refine foldl_invariant
          (P := fun m => encodeTuple u ∈ m.map Prod.fst)
          (edgeFoldStep steps) rest _ ?_ ?_
        · rw [edgeFoldStep_eq, hr]
          exact key_mem_mapSet _ _ _
        · intro acc2 tr2 _ hk
          rw [edgeFoldStep_eq]
          cases resolveTuple steps tr2 with
          | none => exact hk
          | some u2 => exact key_mem_mapSet_of_mem hk _ _
      · exact ih _ u hm

/-- **C3, counterexample.** With step keys containing the separator text
`"->"`, the tuple `("a", "b->c", "")` is present only in the to-snapshot,
yet the diff reports no added (and no removed) transition: the code
identifies transitions by the concatenated string, not by the tuple. -/
theorem tz_C3_counterexample :
    (("a", "b->c", "") ∈ edgeTuples ⟨[⟨1, "a->b", "action", "S1", none, 0, 0⟩,
        ⟨2, "c", "action", "S2", none, 0, 0⟩, ⟨3, "a", "action", "S3", none, 0, 0⟩,
        ⟨4, "b->c", "action", "S4", none, 0, 0⟩], [⟨3, 4, none⟩]⟩)
    ∧ (("a", "b->c", "") ∉ edgeTuples ⟨[⟨1, "a->b", "action", "S1", none, 0, 0⟩,
        ⟨2, "c", "action", "S2", none, 0, 0⟩, ⟨3, "a", "action", "S3", none, 0, 0⟩,
        ⟨4, "b->c", "action", "S4", none, 0, 0⟩], [⟨1, 2, none⟩]⟩)
    ∧ (diff ⟨[⟨1, "a->b", "action", "S1", none, 0, 0⟩,
        ⟨2, "c", "action", "S2", none, 0, 0⟩, ⟨3, "a", "action", "S3", none, 0, 0⟩,
        ⟨4, "b->c", "action", "S4", none, 0, 0⟩], [⟨1, 2, none⟩]⟩
        ⟨[⟨1, "a->b", "action", "S1", none, 0, 0⟩,
        ⟨2, "c", "action", "S2", none, 0, 0⟩, ⟨3, "a", "action", "S3", none, 0, 0⟩,
        ⟨4, "b->c", "action", "S4", none, 0, 0⟩], [⟨3, 4, none⟩]⟩).edgesAdded = []
    ∧ (diff ⟨[⟨1, "a->b", "action", "S1", none, 0, 0⟩,
        ⟨2, "c", "action", "S2", none, 0, 0⟩, ⟨3, "a", "action", "S3", none, 0, 0⟩,
        ⟨4, "b->c", "action", "S4", none, 0, 0⟩], [⟨1, 2, none⟩]⟩
        ⟨[⟨1, "a->b", "action", "S1", none, 0, 0⟩,
        ⟨2, "c", "action", "S2", none, 0, 0⟩, ⟨3, "a", "action", "S3", none, 0, 0⟩,
        ⟨4, "b->c", "action", "S4", none, 0, 0⟩], [⟨3, 4, none⟩]⟩).edgesRemoved = [] := by
  refine ⟨by decide, by decide, by decide, by decide⟩

/-- **C3, amended.** Transition diffing identifies a transition by the
concatenated string `fromKey ++ "->" ++ toKey ++ "|" ++ label` (absent label
normalised to `""`).  Whenever that encoding is injective on the tuples of
the two snapshots (in particular whenever keys contain no `"->"` and toKeys
and labels no `"|"`), this coincides with tuple identity: a tuple present
only in the to-snapshot is reported as added and one present only in the
from-snapshot as removed; there is no changed category for transitions, so a
relabeled edge appears as one removal plus one addition. -/
theorem tz_C3_edge_diff_by_tuple (A B : Snapshot)
    (hinj : ∀ u1 ∈ edgeTuples A ++ edgeTuples B,
      ∀ u2 ∈ edgeTuples A ++ edgeTuples B,
        encodeTuple u1 = encodeTuple u2 → u1 = u2) :
    ∀ u : String × String × String,
      ((u ∈ ((diff A B).edgesAdded.map normEdge) ↔
        (u ∈ edgeTuples B ∧ u ∉ edgeTuples A))
      ∧ (u ∈ ((diff A B).edgesRemoved.map normEdge) ↔
        (u ∈ edgeTuples A ∧ u ∉ edgeTuples B))) := by
  have hadded : (diff A B).edgesAdded =
      (edgesByKey B.steps B.transitions).filterMap (fun p =>
        if (mapGet (edgesByKey A.steps A.transitions) p.1).isNone then some p.2
        else none) := rfl
  have hremoved : (diff A B).edgesRemoved =
      (edgesByKey A.steps A.transitions).filterMap (fun p =>
        if (mapGet (edgesByKey B.steps B.transitions) p.1).isNone then some p.2
        else none) := rfl
  have main : ∀ (X Y : Snapshot),
      (∀ u1 ∈ edgeTuples X ++ edgeTuples Y,
        ∀ u2 ∈ edgeTuples X ++ edgeTuples Y,
          encodeTuple u1 = encodeTuple u2 → u1 = u2) →
      ∀ u : String × String × String,
      (u ∈ (((edgesByKey Y.steps Y.transitions).filterMap (fun p =>
          if (mapGet (edgesByKey X.steps X.transitions) p.1).isNone then some p.2
          else none)).map normEdge) ↔ (u ∈ edgeTuples Y ∧ u ∉ edgeTuples X)) := by
    intro X Y hXY u
    constructor
    · intro hu
      obtain ⟨e, he, hne⟩ := List.mem_map.mp hu
      obtain ⟨p, hp, hfp⟩ := List.mem_filterMap.mp he
      have hnone : (mapGet (edgesByKey X.steps X.transitions) p.1).isNone := by
        by_cases hc : (mapGet (edgesByKey X.steps X.transitions) p.1).isNone
        · exact hc
        · rw [if_neg hc] at hfp; cases hfp
      rw [if_pos hnone] at hfp
      have hpe : p.2 = e := Option.some.inj hfp
      obtain ⟨hkey, hmem⟩ := edgesByKey_entry Y.steps Y.transitions p hp
      refine ⟨by rw [← hne, ← hpe]; exact hmem, ?_⟩
      intro huX
      have hk2 : encodeTuple u ∈ (edgesByKey X.steps X.transitions).map Prod.fst :=
        encode_mem_keys_edgesByKey X.steps X.transitions [] u huX
      have hsome := mapGet_isSome_of_key_mem hk2
      have hp1 : p.1 = encodeTuple u := by rw [hkey, hpe, hne]
      rw [hp1, Option.isNone_iff_eq_none] at hnone
      rw [hnone] at hsome
      simp at hsome
    · rintro ⟨huY, huX⟩
      have hkeys : encodeTuple u ∈ (edgesByKey Y.steps Y.transitions).map Prod.fst :=
        encode_mem_keys_edgesByKey Y.steps Y.transitions [] u huY
      have hsome := mapGet_isSome_of_key_mem hkeys
      obtain ⟨e, hse⟩ := Option.isSome_iff_exists.mp hsome
      obtain ⟨p, hp, hpk, hpv⟩ := exists_of_mapGet_eq_some hse
      obtain ⟨hkey, hmem⟩ := edgesByKey_entry Y.steps Y.transitions p hp
      have hnormp : normEdge p.2 = u := by
        refine hXY _ (List.mem_append.mpr (Or.inr hmem)) _
          (List.mem_append.mpr (Or.inr huY)) ?_
        rw [← hkey, hpk]
      have hnone : mapGet (edgesByKey X.steps X.transitions) p.1 = none := by
        cases hc : mapGet (edgesByKey X.steps X.transitions) p.1 with
        | none => rfl
        | some e2 =>
          obtain ⟨q, hq, hqk, hqv⟩ := exists_of_mapGet_eq_some hc
          obtain ⟨hqkey, hqmem⟩ := edgesByKey_entry X.steps X.transitions q hq
          have : normEdge q.2 = u := by
            refine hXY _ (List.mem_append.mpr (Or.inl hqmem)) _
              (List.mem_append.mpr (Or.inr huY)) ?_
            rw [← hqkey, hqk, hpk]
          exact absurd (this ▸ hqmem) huX
      refine List.mem_map.mpr ⟨p.2, ?_, hnormp⟩
      refine List.mem_filterMap.mpr ⟨p, hp, ?_⟩
      rw [hnone]
      rfl
  intro u
  refine ⟨by rw [hadded]; exact main A B hinj u, ?_⟩
  rw [hremoved]
  have hswap : ∀ u1 ∈ edgeTuples B ++ edgeTuples A,
      ∀ u2 ∈ edgeTuples B ++ edgeTuples A,
        encodeTuple u1 = encodeTuple u2 → u1 = u2 := by
    intro u1 h1 u2 h2 he
    rw [List.mem_append, or_comm, ← List.mem_append] at h1 h2
    exact hinj u1 h1 u2 h2 he
  exact main B A hswap u

/-- Witness for the amended C3 at a concrete input: a relabeled edge is one
removal plus one addition. -/
theorem tz_C3_edge_diff_by_tuple_witness :
    (("k1", "k2", "old") ∈ ((diff ⟨[⟨1, "k1", "start", "S", none, 0, 0⟩,
          ⟨2, "k2", "end", "E", none, 0, 0⟩], [⟨1, 2, some "old"⟩]⟩
        ⟨[⟨1, "k1", "start", "S", none, 0, 0⟩,
          ⟨2, "k2", "end", "E", none, 0, 0⟩], [⟨1, 2, some "new"⟩]⟩).edgesAdded.map
            normEdge) ↔
      (("k1", "k2", "old") ∈ edgeTuples ⟨[⟨1, "k1", "start", "S", none, 0, 0⟩,
          ⟨2, "k2", "end", "E", none, 0, 0⟩], [⟨1, 2, some "new"⟩]⟩ ∧
        ("k1", "k2", "old") ∉ edgeTuples ⟨[⟨1, "k1", "start", "S", none, 0, 0⟩,
          ⟨2, "k2", "end", "E", none, 0, 0⟩], [⟨1, 2, some "old"⟩]⟩))
    ∧ (("k1", "k2", "old") ∈ ((diff ⟨[⟨1, "k1", "start", "S", none, 0, 0⟩,
          ⟨2, "k2", "end", "E", none, 0, 0⟩], [⟨1, 2, some "old"⟩]⟩
        ⟨[⟨1, "k1", "start", "S", none, 0, 0⟩,
          ⟨2, "k2", "end", "E", none, 0, 0⟩], [⟨1, 2, some "new"⟩]⟩).edgesRemoved.map
            normEdge) ↔
      (("k1", "k2", "old") ∈ edgeTuples ⟨[⟨1, "k1", "start", "S", none, 0, 0⟩,
          ⟨2, "k2", "end", "E", none, 0, 0⟩], [⟨1, 2, some "old"⟩]⟩ ∧
        ("k1", "k2", "old") ∉ edgeTuples ⟨[⟨1, "k1", "start", "S", none, 0, 0⟩,
          ⟨2, "k2", "end", "E", none, 0, 0⟩], [⟨1, 2, some "new"⟩]⟩)) :=
  tz_C3_edge_diff_by_tuple
    ⟨[⟨1, "k1", "start", "S", none, 0, 0⟩,
      ⟨2, "k2", "end", "E", none, 0, 0⟩], [⟨1, 2, some "old"⟩]⟩
    ⟨[⟨1, "k1", "start", "S", none, 0, 0⟩,
      ⟨2, "k2", "end", "E", none, 0, 0⟩], [⟨1, 2, some "new"⟩]⟩
    (by decide) ("k1", "k2", "old")

/-! ## C5: fork then diff -/

theorem mapGet_map_update {κ α : Type} [DecidableEq κ] (k : κ) (v : α) :
    ∀ m : List (κ × α), (∃ p ∈ m, p.1 = k) →
      mapGet (m.map (fun p => if p.1 = k then (k, v) else p)) k = some v := by
  intro m
  induction m with
  | nil => rintro ⟨p, hp, _⟩; cases hp
  | cons q rest ih =>
    rintro ⟨p, hp, hpk⟩
    simp only [List.map_cons]
    by_cases hq : q.1 = k
    · rw [if_pos hq]
      unfold mapGet
      rw [List.find?_cons_of_pos _ (by simp)]
      rfl
    · rw [if_neg hq]
      unfold mapGet
      rw [List.find?_cons_of_neg _ (by simpa using hq)]
      refine ih ⟨p, ?_, hpk⟩
      rcases List.mem_cons.mp hp with he | hm
      · subst he; exact absurd hpk hq
      · exact hm

theorem mapGet_map_update_ne {κ α : Type} [DecidableEq κ] {k k' : κ} (v : α)
    (h : k' ≠ k) : ∀ m : List (κ × α),
      mapGet (m.map (fun p => if p.1 = k then (k, v) else p)) k'
        = mapGet m k' := by
  intro m
  induction m with
  | nil => rfl
  | cons q rest ih =>
    simp only [List.map_cons]
    unfold mapGet
    by_cases hq : q.1 = k
    · rw [if_pos hq]
      rw [List.find?_cons_of_neg _ (by simpa using h.symm)]
      rw [List.find?_cons_of_neg _ (by simp [hq]; exact Ne.symm h)]
      exact ih
    · rw [if_neg hq]
      by_cases hq' : q.1 = k'
      · rw [List.find?_cons_of_pos _ (by simpa using hq'),
          List.find?_cons_of_pos _ (by simpa using hq')]
      · rw [List.find?_cons_of_neg _ (by simpa using hq'),
          List.find?_cons_of_neg _ (by simpa using hq')]
        exact ih

theorem mapGet_mapSet_self {κ α : Type} [DecidableEq κ] (m : List (κ × α))
    (k : κ) (v : α) : mapGet (mapSet m k v) k = some v := by
  unfold mapSet
  split
  · rename_i hany
    simp only [List.any_eq_true, decide_eq_true_eq] at hany
    exact mapGet_map_update k v m hany
  · rename_i hany
    unfold mapGet
    rw [List.find?_append]
    have h1 : m.find? (fun p => p.1 = k) = none := by
      rw [List.find?_eq_none]
      intro p hp
      simp only [decide_eq_true_eq]
      intro he
      refine hany ?_
      simp only [List.any_eq_true, decide_eq_true_eq]
      exact ⟨p, hp, he⟩
    rw [h1]
    simp

theorem mapGet_mapSet_ne {κ α : Type} [DecidableEq κ] (m : List (κ × α))
    {k k' : κ} (v : α) (h : k' ≠ k) :
    mapGet (mapSet m k v) k' = mapGet m k' := by
  unfold mapSet
  split
  · exact mapGet_map_update_ne v h m
  · unfold mapGet
    rw [List.find?_append]
    have h2 : ([(k, v)] : List (κ × α)).find? (fun p => p.1 = k') = none := by
      simp [List.find?, h.symm]
    rw [h2]
    cases m.find? (fun p => p.1 = k') <;> rfl

theorem forall2_mem_right {α β : Type} {R : α → β → Prop} :
    ∀ {l : List α} {l' : List β}, List.Forall₂ R l l' → ∀ {b}, b ∈ l' →
      ∃ a ∈ l, R a b := by
  intro l l' h
  induction h with
  | nil => intro b hb; cases hb
  | cons hab _ ih =>
    intro b hb
    rcases List.mem_cons.mp hb with he | hm
    · exact ⟨_, List.mem_cons_self _ _, he ▸ hab⟩
    · obtain ⟨a, ha, har⟩ := ih hm
      exact ⟨a, List.mem_cons_of_mem _ ha, har⟩

theorem forall2_mem_left {α β : Type} {R : α → β → Prop} :
    ∀ {l : List α} {l' : List β}, List.Forall₂ R l l' → ∀ {a}, a ∈ l →
      ∃ b ∈ l', R a b := by
  intro l l' h
  induction h with
  | nil => intro a ha; cases ha
  | cons hab _ ih =>
    intro a ha
    rcases List.mem_cons.mp ha with he | hm
    · exact ⟨_, List.mem_cons_self _ _, he ▸ hab⟩
    · obtain ⟨b, hb, hbr⟩ := ih hm
      exact ⟨b, List.mem_cons_of_mem _ hb, hbr⟩

theorem forall2_append {α β : Type} {R : α → β → Prop} :
    ∀ {l1 : List α} {l2 : List β} {u1 : List α} {u2 : List β},
      List.Forall₂ R l1 l2 → List.Forall₂ R u1 u2 →
      List.Forall₂ R (l1 ++ u1) (l2 ++ u2) := by
  intro l1 l2 u1 u2 h1 h2
  induction h1 with
  | nil => exact h2
  | cons hab _ ih => exact List.Forall₂.cons hab ih

theorem keys_eq_of_pairSim : ∀ {m m' : List (String × DbStep)},
    List.Forall₂ PairSim m m' → m'.map Prod.fst = m.map Prod.fst := by
  intro m m' h
  induction h with
  | nil => rfl
  | cons hpq _ ih => simp only [List.map_cons, hpq.1, ih]

theorem forall2_map_update {m m' : List (String × DbStep)}
    (h : List.Forall₂ PairSim m m') {k : String} {v v' : DbStep}
    (hv : StepSim v v') :
    List.Forall₂ PairSim (m.map (fun p => if p.1 = k then (k, v) else p))
      (m'.map (fun p => if p.1 = k then (k, v') else p)) := by
  induction h with
  | nil => constructor
  | cons hpq hrest ih =>
    simp only [List.map_cons]
    refine List.Forall₂.cons ?_ ih
    rename_i p q _ _
    by_cases hpk : p.1 = k
    · rw [if_pos hpk, if_pos (by rw [hpq.1]; exact hpk)]
      exact ⟨rfl, hv⟩
    · rw [if_neg hpk, if_neg (by rw [hpq.1]; exact hpk)]
      exact hpq

theorem forall2_mapSet {m m' : List (String × DbStep)}
    (h : List.Forall₂ PairSim m m') {k : String} {v v' : DbStep}
    (hv : StepSim v v') :
    List.Forall₂ PairSim (mapSet m k v) (mapSet m' k v') := by
  have hany : (m'.any fun p => p.1 = k) = (m.any fun p => p.1 = k) := by
    have hiff : ((m'.any fun p => p.1 = k) = true) ↔
        ((m.any fun p => p.1 = k) = true) := by
      simp only [List.any_eq_true, decide_eq_true_eq]
      constructor
      · rintro ⟨p, hp, hpk⟩
        obtain ⟨q, hq, hqp⟩ := forall2_mem_right h hp
        exact ⟨q, hq, by rw [← hqp.1]; exact hpk⟩
      · rintro ⟨q, hq, hqk⟩
        obtain ⟨p, hp, hqp⟩ := forall2_mem_left h hq
        exact ⟨p, hp, by rw [hqp.1]; exact hqk⟩
    cases hb : (m'.any fun p => p.1 = k) <;>
      cases hb' : (m.any fun p => p.1 = k) <;> simp_all
  unfold mapSet
  rw [hany]
  by_cases hc : (m.any fun p => p.1 = k) = true
  · simp only [hc, if_true]
    exact forall2_map_update h hv
  · simp only [hc, if_false]
    exact forall2_append h (List.Forall₂.cons ⟨rfl, hv⟩ List.Forall₂.nil)

theorem stepsByKey_sim {A B : List DbStep} (h : List.Forall₂ StepSim A B) :
    List.Forall₂ PairSim (stepsByKey A) (stepsByKey B) := by
  unfold stepsByKey
  have aux : ∀ {A B : List DbStep}, List.Forall₂ StepSim A B →
      ∀ {m m' : List (String × DbStep)}, List.Forall₂ PairSim m m' →
      List.Forall₂ PairSim (A.foldl (fun m s => mapSet m s.stepKey s) m)
        (B.foldl (fun m s => mapSet m s.stepKey s) m') := by
    intro A B h
    induction h with
    | nil => intro m m' hm; exact hm
    | cons hab _ ih =>
      intro m m' hm
      simp only [List.foldl_cons]
      apply ih
      rw [hab.1]
      exact forall2_mapSet hm hab
  exact aux h List.Forall₂.nil

theorem steps_diff_empty_of_sim (A B : Snapshot)
    (h : List.Forall₂ StepSim A.steps B.steps) :
    (diff A B).stepsAdded = [] ∧ (diff A B).stepsRemoved = [] ∧
      (diff A B).stepsChanged = [] := by
  have hsim := stepsByKey_sim h
  have hkeys := keys_eq_of_pairSim hsim
  have hAnd := nodupKeys_stepsByKey A.steps
  refine ⟨?_, ?_, ?_⟩ <;> simp only [diff] <;>
    rw [List.filterMap_eq_nil_iff] <;> intro p hp
  · have hmem : p.1 ∈ (stepsByKey B.steps).map Prod.fst :=
      List.mem_map.mpr ⟨p, hp, rfl⟩
    rw [hkeys] at hmem
    have := mapGet_isSome_of_key_mem hmem
    rw [Option.isSome_iff_exists] at this
    obtain ⟨v, hv⟩ := this
    rw [hv]
    rfl
  · have hmem : p.1 ∈ (stepsByKey A.steps).map Prod.fst :=
      List.mem_map.mpr ⟨p, hp, rfl⟩
    rw [← hkeys] at hmem
    have := mapGet_isSome_of_key_mem hmem
    rw [Option.isSome_iff_exists] at this
    obtain ⟨v, hv⟩ := this
    rw [hv]
    rfl
  · obtain ⟨q, hq, hqp⟩ := forall2_mem_right hsim hp
    have hget : mapGet (stepsByKey A.steps) p.1 = some q.2 := by
      rw [hqp.1]
      exact mapGet_of_mem hAnd hq
    rw [hget]
    obtain ⟨h1, h2, h3, h4⟩ := hqp.2
    simp [stepChangedOn, h1, h2, h3, h4]

theorem edges_diff_empty_of_eq (A B : Snapshot)
    (hE : edgesByKey B.steps B.transitions = edgesByKey A.steps A.transitions) :
    (diff A B).edgesAdded = [] ∧ (diff A B).edgesRemoved = [] := by
  constructor <;> simp only [diff] <;> rw [hE] <;>
    rw [List.filterMap_eq_nil_iff] <;> intro p hp <;>
    rw [mapGet_of_mem (nodupKeys_edgesByKey A.steps A.transitions) hp] <;> rfl

theorem edgesByKey_congr {stepsA stepsB : List DbStep}
    {trsA trsB : List DbTransition}
    (h : List.Forall₂ (fun tr tr' =>
      resolveTuple stepsA tr = resolveTuple stepsB tr' ∧ tr'.label = tr.label)
      trsA trsB) :
    edgesByKey stepsB trsB = edgesByKey stepsA trsA := by
  unfold edgesByKey
  have aux : ∀ {trsA trsB : List DbTransition}, List.Forall₂ (fun tr tr' =>
      resolveTuple stepsA tr = resolveTuple stepsB tr' ∧ tr'.label = tr.label)
      trsA trsB →
      ∀ m : List (String × EdgeInfo),
        trsB.foldl (edgeFoldStep stepsB) m = trsA.foldl (edgeFoldStep stepsA) m := by
    intro trsA trsB h
    induction h with
    | nil => intro m; rfl
    | cons hab _ ih =>
      intro m
      simp only [List.foldl_cons]
      rw [edgeFoldStep_eq, edgeFoldStep_eq, ← hab.1, hab.2]
      exact ih _
  exact aux h []

theorem idToKeyMap_eq {steps : List DbStep} (h : (steps.map DbStep.id).Nodup) :
    idToKeyMap steps = steps.map (fun s => (s.id, s.stepKey)) := by
  unfold idToKeyMap
  have := foldl_mapSet_eq_append (fun s : DbStep => s.id) (fun s => s.stepKey)
    steps [] (by simp) h
  simpa using this

theorem forkSteps_sim (newId : Nat → Nat) (uuid : Nat → String) :
    ∀ (steps : List DbStep) (i : Nat), (∀ s ∈ steps, s.stepKey ≠ "") →
      List.Forall₂ StepSim steps (forkSteps newId uuid i steps) := by
  intro steps
  induction steps with
  | nil => intro i _; exact List.Forall₂.nil
  | cons s rest ih =>
    intro i hk
    refine List.Forall₂.cons ?_ (ih (i + 1)
      (fun t ht => hk t (List.mem_cons_of_mem s ht)))
    refine ⟨?_, rfl, rfl, rfl⟩
    simp only [forkSteps]
    rw [if_neg (hk s (List.mem_cons_self s rest))]

theorem forkSteps_ids (newId : Nat → Nat) (uuid : Nat → String) :
    ∀ (steps : List DbStep) (i : Nat),
      (forkSteps newId uuid i steps).map DbStep.id
        = (List.range' i steps.length).map newId := by
  intro steps
  induction steps with
  | nil => intro i; rfl
  | cons s rest ih =>
    intro i
    simp only [forkSteps, List.map_cons, List.length_cons, List.range'_succ]
    rw [ih (i + 1)]

theorem forkSteps_ids_nodup (newId : Nat → Nat) (uuid : Nat → String)
    (steps : List DbStep) (i : Nat) (hinj : Function.Injective newId) :
    ((forkSteps newId uuid i steps).map DbStep.id).Nodup := by
  rw [forkSteps_ids]
  exact (List.nodup_range' _ _).map hinj

theorem forkIdMapAux_get_frozen (newId : Nat → Nat) :
    ∀ (steps : List DbStep) (i : Nat) (acc : List (Nat × Nat)) (k : Nat),
      (∀ s ∈ steps, s.id ≠ k) →
      mapGet (forkIdMapAux newId acc i steps) k = mapGet acc k := by
  intro steps
  induction steps with
  | nil => intros; rfl
  | cons s rest ih =>
    intro i acc k h
    simp only [forkIdMapAux]
    rw [ih (i + 1) _ k (fun t ht => h t (List.mem_cons_of_mem s ht))]
    exact mapGet_mapSet_ne acc _ (h s (List.mem_cons_self s rest)).symm

theorem forkIdMap_zip_get (newId : Nat → Nat) (uuid : Nat → String) :
    ∀ (steps : List DbStep) (i : Nat) (acc : List (Nat × Nat)),
      (steps.map DbStep.id).Nodup →
      ∀ q ∈ steps.zip (forkSteps newId uuid i steps),
        mapGet (forkIdMapAux newId acc i steps) q.1.id = some q.2.id := by
  intro steps
  induction steps with
  | nil => intro i acc _ q hq; simp [forkSteps] at hq
  | cons s rest ih =>
    intro i acc hnd q hq
    simp only [List.map_cons, List.nodup_cons] at hnd
    have hzip : (s :: rest).zip (forkSteps newId uuid i (s :: rest))
        = (s,
            { s with
              id := newId i
              stepKey := if s.stepKey = "" then uuid i else s.stepKey })
          :: rest.zip (forkSteps newId uuid (i + 1) rest) := rfl
    rw [hzip] at hq
    simp only [forkIdMapAux]
    rcases List.mem_cons.mp hq with he | hm
    · subst he
      rw [forkIdMapAux_get_frozen newId rest (i + 1) _ s.id ?_]
      · exact mapGet_mapSet_self acc s.id (newId i)
      · intro t ht he
        exact hnd.1 (by rw [← he]; exact List.mem_map.mpr ⟨t, ht, rfl⟩)
    · exact ih (i + 1) _ hnd.2 q hm

theorem forkTransitions_spec (idMap : List (Nat × Nat)) :
    ∀ trs : List DbTransition,
      (∀ tr ∈ trs, (mapGet idMap tr.fromStepId).isSome ∧
        (mapGet idMap tr.toStepId).isSome) →
      ∃ newTrs, forkTransitions idMap trs = some newTrs ∧
        List.Forall₂ (fun tr tr' =>
          mapGet idMap tr.fromStepId = some tr'.fromStepId ∧
          mapGet idMap tr.toStepId = some tr'.toStepId ∧
          tr'.label = tr.label) trs newTrs := by
  intro trs
  induction trs with
  | nil => intro _; exact ⟨[], rfl, List.Forall₂.nil⟩
  | cons tr rest ih =>
    intro h
    obtain ⟨hf, ht⟩ := h tr (List.mem_cons_self tr rest)
    obtain ⟨f, hfe⟩ := Option.isSome_iff_exists.mp hf
    obtain ⟨t, hte⟩ := Option.isSome_iff_exists.mp ht
    obtain ⟨newRest, hrest, hrel⟩ := ih (fun u hu => h u (List.mem_cons_of_mem tr hu))
    refine ⟨⟨f, t, tr.label⟩ :: newRest, ?_,
      List.Forall₂.cons ⟨hfe, hte, rfl⟩ hrel⟩
    simp only [forkTransitions, hfe, hte, hrest, Option.map_some']

theorem mem_zip_left {α β : Type} :
    ∀ {l : List α} {l' : List β}, l.length = l'.length → ∀ {a : α}, a ∈ l →
      ∃ b, (a, b) ∈ l.zip l' := by
  intro l
  induction l with
  | nil => intro l' _ a ha; cases ha
  | cons x rest ih =>
    intro l' hlen a ha
    cases l' with
    | nil => simp at hlen
    | cons y rest' =>
      rcases List.mem_cons.mp ha with he | hm
      · exact ⟨y, by simp [he]⟩
      · obtain ⟨b, hb⟩ := ih (by simpa using hlen) hm
        exact ⟨b, List.mem_cons_of_mem _ hb⟩

theorem sim_field_maps {A B : List DbStep} (h : List.Forall₂ StepSim A B) :
    B.map DbStep.stepKey = A.map DbStep.stepKey ∧
      B.map DbStep.title = A.map DbStep.title ∧
      B.map DbStep.description = A.map DbStep.description ∧
      B.map DbStep.type = A.map DbStep.type := by
  induction h with
  | nil => exact ⟨rfl, rfl, rfl, rfl⟩
  | cons hab _ ih =>
    obtain ⟨h1, h2, h3, h4⟩ := hab
    simp only [List.map_cons, h1, h2, h3, h4, ih.1, ih.2.1, ih.2.2.1, ih.2.2.2]
    exact ⟨trivial, trivial, trivial, trivial⟩

theorem rel_label_map {idMap : List (Nat × Nat)} :
    ∀ {trs newTrs : List DbTransition},
      List.Forall₂ (fun tr tr' =>
        mapGet idMap tr.fromStepId = some tr'.fromStepId ∧
        mapGet idMap tr.toStepId = some tr'.toStepId ∧
        tr'.label = tr.label) trs newTrs →
      newTrs.map DbTransition.label = trs.map DbTransition.label := by
  intro trs newTrs h
  induction h with
  | nil => rfl
  | cons hab _ ih => simp only [List.map_cons, hab.2.2, ih]

/-- **C5, counterexample.** A version whose only step has the empty string as
its `stepKey` is not key-preserved by the fork route: `stepKey:
step.stepKey || uuidv4()` replaces the falsy key with a fresh uuid (here
modelled by the generator returning `"u0"`; `uuidv4()` never returns an empty
string), so diffing the version against its fresh fork reports one added and
one removed step instead of empty lists. -/
theorem tz_C5_counterexample :
    forkSnapshot (fun i => i + 10) (fun _ => "u0")
        ⟨[⟨1, "", "action", "T", none, 0, 0⟩], []⟩
      = some ⟨[⟨10, "u0", "action", "T", none, 0, 0⟩], []⟩
    ∧ (diff ⟨[⟨1, "", "action", "T", none, 0, 0⟩], []⟩
        ⟨[⟨10, "u0", "action", "T", none, 0, 0⟩], []⟩).stepsAdded
        = [⟨"u0", "T", none, "action"⟩]
    ∧ (diff ⟨[⟨1, "", "action", "T", none, 0, 0⟩], []⟩
        ⟨[⟨10, "u0", "action", "T", none, 0, 0⟩], []⟩).stepsRemoved
        = [⟨"", "T", none, "action"⟩] :=
  ⟨by decide, by decide, by decide⟩

/-- **C5, amended.** For every version whose step keys are all nonempty (and
with the database-guaranteed well-formedness: distinct step ids, fresh
injective new ids, transition endpoints referencing existing steps), forking
produces a snapshot preserving every step key, title, description and type
and every transition's endpoints and label, and diffing the version against
its fresh fork yields empty added/removed/changed lists for steps and empty
added/removed lists for transitions. -/
theorem tz_C5_fork_then_diff_empty (newId : Nat → Nat) (uuid : Nat → String)
    (snap : Snapshot)
    (hkeys : ∀ s ∈ snap.steps, s.stepKey ≠ "")
    (hids : (snap.steps.map DbStep.id).Nodup)
    (hinj : Function.Injective newId)
    (hend : ∀ tr ∈ snap.transitions,
      (∃ s ∈ snap.steps, s.id = tr.fromStepId) ∧
      (∃ s ∈ snap.steps, s.id = tr.toStepId)) :
    ∃ snap', forkSnapshot newId uuid snap = some snap' ∧
      snap'.steps.map DbStep.stepKey = snap.steps.map DbStep.stepKey ∧
      snap'.steps.map DbStep.title = snap.steps.map DbStep.title ∧
      snap'.steps.map DbStep.description = snap.steps.map DbStep.description ∧
      snap'.steps.map DbStep.type = snap.steps.map DbStep.type ∧
      snap'.transitions.map DbTransition.label
        = snap.transitions.map DbTransition.label ∧
      diff snap snap' = emptyDelta := by
  have hsim : List.Forall₂ StepSim snap.steps (forkSteps newId uuid 0 snap.steps) :=
    forkSteps_sim newId uuid snap.steps 0 hkeys
  have hlen := hsim.length_eq
  have hget := forkIdMap_zip_get newId uuid snap.steps 0 [] hids
  have hmm : ∀ tr ∈ snap.transitions,
      (mapGet (forkIdMap newId snap.steps) tr.fromStepId).isSome ∧
      (mapGet (forkIdMap newId snap.steps) tr.toStepId).isSome := by
    intro tr htr
    obtain ⟨⟨sf, hsf, hsfid⟩, ⟨st, hst, hstid⟩⟩ := hend tr htr
    obtain ⟨bf, hbf⟩ := mem_zip_left hlen hsf
    obtain ⟨bt, hbt⟩ := mem_zip_left hlen hst
    have h1 : mapGet (forkIdMapAux newId [] 0 snap.steps) sf.id = some bf.id :=
      hget (sf, bf) hbf
    have h2 : mapGet (forkIdMapAux newId [] 0 snap.steps) st.id = some bt.id :=
      hget (st, bt) hbt
    unfold forkIdMap
    rw [← hsfid, ← hstid, h1, h2]
    exact ⟨rfl, rfl⟩
  obtain ⟨newTrs, hTrs, hTrel⟩ := forkTransitions_spec _ snap.transitions hmm
  have hNodupNew := forkSteps_ids_nodup newId uuid snap.steps 0 hinj
  have hIKold := idToKeyMap_eq hids
  have hIKnew := idToKeyMap_eq hNodupNew
  have hres : List.Forall₂ (fun tr tr' =>
      resolveTuple snap.steps tr
        = resolveTuple (forkSteps newId uuid 0 snap.steps) tr' ∧
      tr'.label = tr.label) snap.transitions newTrs := by
    rw [List.forall₂_iff_zip]
    refine ⟨hTrel.length_eq, ?_⟩
    intro a b hab
    have htr : a ∈ snap.transitions := (List.of_mem_zip hab).1
    obtain ⟨hrf, hrt, hrl⟩ := (List.forall₂_iff_zip.mp hTrel).2 hab
    refine ⟨?_, hrl⟩
    obtain ⟨⟨sf, hsf, hsfid⟩, ⟨st, hst, hstid⟩⟩ := hend a htr
    obtain ⟨bf, hbf⟩ := mem_zip_left hlen hsf
    obtain ⟨bt, hbt⟩ := mem_zip_left hlen hst
    have h1 : mapGet (forkIdMapAux newId [] 0 snap.steps) sf.id = some bf.id :=
      hget (sf, bf) hbf
    have h2 : mapGet (forkIdMapAux newId [] 0 snap.steps) st.id = some bt.id :=
      hget (st, bt) hbt
    have hbfid : b.fromStepId = bf.id := by
      rw [← hsfid] at hrf
      have hrf' : mapGet (forkIdMapAux newId [] 0 snap.steps) sf.id
          = some b.fromStepId := hrf
      exact (Option.some.inj (h1.symm.trans hrf')).symm
    have hbtid : b.toStepId = bt.id := by
      rw [← hstid] at hrt
      have hrt' : mapGet (forkIdMapAux newId [] 0 snap.steps) st.id
          = some b.toStepId := hrt
      exact (Option.some.inj (h2.symm.trans hrt')).symm
    have hof : mapGet (idToKeyMap snap.steps) a.fromStepId = some sf.stepKey := by
      rw [← hsfid]
      exact mapGet_of_mem (nodupKeys_idToKeyMap snap.steps)
        (p := (sf.id, sf.stepKey))
        (by rw [hIKold]; exact List.mem_map.mpr ⟨sf, hsf, rfl⟩)
    have hot : mapGet (idToKeyMap snap.steps) a.toStepId = some st.stepKey := by
      rw [← hstid]
      exact mapGet_of_mem (nodupKeys_idToKeyMap snap.steps)
        (p := (st.id, st.stepKey))
        (by rw [hIKold]; exact List.mem_map.mpr ⟨st, hst, rfl⟩)
    have hnf : mapGet (idToKeyMap (forkSteps newId uuid 0 snap.steps)) b.fromStepId
        = some bf.stepKey := by
      rw [hbfid]
      exact mapGet_of_mem (nodupKeys_idToKeyMap _)
        (p := (bf.id, bf.stepKey))
        (by rw [hIKnew]; exact List.mem_map.mpr ⟨bf, (List.of_mem_zip hbf).2, rfl⟩)
    have hnt : mapGet (idToKeyMap (forkSteps newId uuid 0 snap.steps)) b.toStepId
        = some bt.stepKey := by
      rw [hbtid]
      exact mapGet_of_mem (nodupKeys_idToKeyMap _)
        (p := (bt.id, bt.stepKey))
        (by rw [hIKnew]; exact List.mem_map.mpr ⟨bt, (List.of_mem_zip hbt).2, rfl⟩)
    have hkf : bf.stepKey = sf.stepKey := ((List.forall₂_iff_zip.mp hsim).2 hbf).1
    have hkt : bt.stepKey = st.stepKey := ((List.forall₂_iff_zip.mp hsim).2 hbt).1
    unfold resolveTuple
    rw [hof, hot, hnf, hnt, hkf, hkt, hrl]
  have hE := edgesByKey_congr hres
  refine ⟨⟨forkSteps newId uuid 0 snap.steps, newTrs⟩, ?_, (sim_field_maps hsim).1,
    (sim_field_maps hsim).2.1, (sim_field_maps hsim).2.2.1,
    (sim_field_maps hsim).2.2.2, rel_label_map hTrel, ?_⟩
  · simp only [forkSnapshot, hTrs, Option.map_some']
  · obtain ⟨ha, hr, hc⟩ := steps_diff_empty_of_sim snap
      ⟨forkSteps newId uuid 0 snap.steps, newTrs⟩ hsim
    obtain ⟨hea, her⟩ := edges_diff_empty_of_eq snap
      ⟨forkSteps newId uuid 0 snap.steps, newTrs⟩ hE
    have heta : diff snap ⟨forkSteps newId uuid 0 snap.steps, newTrs⟩ =
        ⟨(diff snap ⟨forkSteps newId uuid 0 snap.steps, newTrs⟩).stepsAdded,
         (diff snap ⟨forkSteps newId uuid 0 snap.steps, newTrs⟩).stepsRemoved,
         (diff snap ⟨forkSteps newId uuid 0 snap.steps, newTrs⟩).stepsChanged,
         (diff snap ⟨forkSteps newId uuid 0 snap.steps, newTrs⟩).edgesAdded,
         (diff snap ⟨forkSteps newId uuid 0 snap.steps, newTrs⟩).edgesRemoved⟩ := rfl
    rw [heta, ha, hr, hc, hea, her]
    rfl

/-- Witness for the amended C5 at a concrete two-step, one-transition
version. -/
theorem tz_C5_fork_then_diff_empty_witness :
    ∃ snap', forkSnapshot (fun i => i + 10) (fun _ => "u")
        ⟨[⟨1, "a", "start", "S", none, 0, 0⟩, ⟨2, "b", "end", "E", none, 0, 0⟩],
         [⟨1, 2, some "L"⟩]⟩ = some snap' ∧
      snap'.steps.map DbStep.stepKey
        = ([⟨1, "a", "start", "S", none, 0, 0⟩,
            ⟨2, "b", "end", "E", none, 0, 0⟩] : List DbStep).map DbStep.stepKey ∧
      snap'.steps.map DbStep.title
        = ([⟨1, "a", "start", "S", none, 0, 0⟩,
            ⟨2, "b", "end", "E", none, 0, 0⟩] : List DbStep).map DbStep.title ∧
      snap'.steps.map DbStep.description
        = ([⟨1, "a", "start", "S", none, 0, 0⟩,
            ⟨2, "b", "end", "E", none, 0, 0⟩] : List DbStep).map DbStep.description ∧
      snap'.steps.map DbStep.type
        = ([⟨1, "a", "start", "S", none, 0, 0⟩,
            ⟨2, "b", "end", "E", none, 0, 0⟩] : List DbStep).map DbStep.type ∧
      snap'.transitions.map DbTransition.label
        = ([⟨1, 2, some "L"⟩] : List DbTransition).map DbTransition.label ∧
      diff ⟨[⟨1, "a", "start", "S", none, 0, 0⟩, ⟨2, "b", "end", "E", none, 0, 0⟩],
         [⟨1, 2, some "L"⟩]⟩ snap' = emptyDelta :=
  tz_C5_fork_then_diff_empty (fun i => i + 10) (fun _ => "u")
    ⟨[⟨1, "a", "start", "S", none, 0, 0⟩, ⟨2, "b", "end", "E", none, 0, 0⟩],
     [⟨1, 2, some "L"⟩]⟩
    (by decide) (by decide)
    (fun a b h => by simpa using h)
    (by decide)

/-! ## C9: creating a spec sets its current version -/

/-- **C9.** Creating a Spec stores, in the same transaction, an initial
draft Version with versionNumber 1 belonging to the new Spec, and the stored
Spec row's `currentVersionId` points at that Version, so a freshly created
Spec always has a current version even though nothing was published. -/
theorem tz_C9_create_spec_sets_current_version (db : Db) (title : String)
    (description : Option String) (createdById : Option Nat)
    (hfresh : ∀ r ∈ db.specs, r.id < db.nextSpecId) :
    (createSpecTxn db title description createdById).2.2.versionNumber = 1 ∧
    (createSpecTxn db title description createdById).2.2.status = "draft" ∧
    (createSpecTxn db title description createdById).2.2.specId
      = (createSpecTxn db title description createdById).2.1.id ∧
    (createSpecTxn db title description createdById).1.specs.find?
        (fun r => r.id = (createSpecTxn db title description createdById).2.1.id)
      = some { (createSpecTxn db title description createdById).2.1 with
               currentVersionId :=
                 some (createSpecTxn db title description createdById).2.2.id } := by
  refine ⟨rfl, rfl, rfl, ?_⟩
  simp only [createSpecTxn]
  rw [List.map_append, List.find?_append]
  have h1 : ((db.specs).map (fun r =>
      if r.id = db.nextSpecId
      then { r with currentVersionId := some db.nextVersionId } else r)).find?
        (fun r => r.id = db.nextSpecId) = none := by
    rw [List.find?_eq_none]
    intro x hx
    obtain ⟨r, hr, hrx⟩ := List.mem_map.mp hx
    have hne : r.id ≠ db.nextSpecId := Nat.ne_of_lt (hfresh r hr)
    rw [if_neg hne] at hrx
    subst hrx
    simpa using hne
  rw [h1]
  simp

/-- Witness for C9 on the empty database. -/
theorem tz_C9_create_spec_sets_current_version_witness :
    (createSpecTxn ⟨[], [], 1, 1⟩ "t" none none).2.2.versionNumber = 1 ∧
    (createSpecTxn ⟨[], [], 1, 1⟩ "t" none none).2.2.status = "draft" ∧
    (createSpecTxn ⟨[], [], 1, 1⟩ "t" none none).2.2.specId
      = (createSpecTxn ⟨[], [], 1, 1⟩ "t" none none).2.1.id ∧
    (createSpecTxn ⟨[], [], 1, 1⟩ "t" none none).1.specs.find?
        (fun r => r.id = (createSpecTxn ⟨[], [], 1, 1⟩ "t" none none).2.1.id)
      = some { (createSpecTxn ⟨[], [], 1, 1⟩ "t" none none).2.1 with
               currentVersionId :=
                 some (createSpecTxn ⟨[], [], 1, 1⟩ "t" none none).2.2.id } :=
  tz_C9_create_spec_sets_current_version ⟨[], [], 1, 1⟩ "t" none none
    (by intro r hr; cases hr)

/-! ## C6: column resolution -/

theorem findColAux_eq_none_iff (p : String → Bool) :
    ∀ (l : List String) (i : Nat),
      findColAux p i l = none ↔ ∀ c ∈ l, p (jsToLower c) = false := by
  intro l
  induction l with
  | nil => intro i; simp [findColAux]
  | cons c rest ih =>
    intro i
    simp only [findColAux]
    by_cases hc : p (jsToLower c) = true
    · simp [hc]
    · have hc' : p (jsToLower c) = false := by simpa using hc
      simp [hc', ih (i + 1)]

theorem cellAt_length (row : List String) : cellAt row row.length = "" := by
  simp [cellAt, List.get?_eq_none]

/-- **C6, counterexample.** The header `["a№", "шаг сценария"]` contains both
the step-number text `"№"` and the step-title text `"шаг сценария"` as
substrings, so under case-insensitive substring matching both mandatory
columns are present, yet the importer fails with MissingRequiredColumns: the
step-number column is matched by `s === "№" || s.startsWith("№")`, a prefix
test, not a substring test. -/
theorem tz_C6_counterexample :
    resolveColumns ["a№", "шаг сценария"]
      = Except.error ImportError.missingRequiredColumns
    ∧ strIncludes (jsToLower "a№") "№" = true
    ∧ strIncludes (jsToLower "шаг сценария") "шаг сценария" = true :=
  ⟨by rfl, by decide, by decide⟩

/-- **C6, amended.** Within the located header row the step-number column is
the first cell whose lowercased text equals or starts with `"№"` and the
step-title column the first whose lowercased text contains
`"шаг сценария"`; the importer fails, and fails with
`MissingRequiredColumns`, exactly when one of these two cells is absent.
The other columns are optional: resolution with a missing optional column
extracts every row exactly as if that column read as the empty cell. -/
theorem tz_C6_column_resolution (header : List String) (iNum iTitle : Nat)
    (i : Nat) (row : List String) :
    (resolveColumns header = Except.error ImportError.missingRequiredColumns ↔
      ((∀ c ∈ header, numColPred (jsToLower c) = false) ∨
       (∀ c ∈ header, titleColPred (jsToLower c) = false)))
    ∧ (∀ e, resolveColumns header = Except.error e →
        e = ImportError.missingRequiredColumns)
    ∧ extractRow ⟨iNum, iTitle, none, none, none, none⟩ i row
        = extractRow ⟨iNum, iTitle, some row.length, some row.length,
                      some row.length, some row.length⟩ i row := by
  have hnum := findColAux_eq_none_iff numColPred header 0
  have htitle := findColAux_eq_none_iff titleColPred header 0
  refine ⟨?_, ?_, ?_⟩
  · unfold resolveColumns findCol
    cases h1 : findColAux numColPred 0 header with
    | none =>
      cases h2 : findColAux titleColPred 0 header with
      | none => exact iff_of_true rfl (Or.inl (hnum.mp h1))
      | some j => exact iff_of_true rfl (Or.inl (hnum.mp h1))
    | some j =>
      cases h2 : findColAux titleColPred 0 header with
      | none => exact iff_of_true rfl (Or.inr (htitle.mp h2))
      | some j2 =>
        constructor
        · intro h; cases h
        · intro h
          rcases h with h | h
          · rw [← hnum] at h; rw [h] at h1; cases h1
          · rw [← htitle] at h; rw [h] at h2; cases h2
  · unfold resolveColumns findCol
    cases h1 : findColAux numColPred 0 header with
    | none =>
      cases h2 : findColAux titleColPred 0 header with
      | none => intro e h; exact (Except.error.inj h).symm
      | some j => intro e h; exact (Except.error.inj h).symm
    | some j =>
      cases h2 : findColAux titleColPred 0 header with
      | none => intro e h; exact (Except.error.inj h).symm
      | some j2 => intro e h; cases h
  · have hcell : cellAt row row.length = "" := cellAt_length row
    simp only [extractRow, optCell, hcell]


/-! ## C8: placeholder synthesis and per-source deduplication -/

theorem matchAt_target_ne {l : List Char} {t : String} {n : Nat}
    (h : matchAt l = some (t, n)) : t ≠ "" := by
  unfold matchAt at h
  split at h
  · cases h
  · split at h
    · cases h
    · split at h
      · simp only [] at h
        split at h
        · cases h
        · split at h
          · cases h
          · rename_i hds
            rw [Option.some.injEq, Prod.mk.injEq] at h
            intro hemp
            rw [← h.1] at hemp
            exact hds (List.isEmpty_iff.mpr (congrArg String.data hemp))
      · cases h

theorem extractGo_target_ne (text : List Char) :
    ∀ (fuel i : Nat) (tr : TextTrans), tr ∈ extractGo text fuel i →
      tr.targetKey ≠ "" := by
  intro fuel
  induction fuel with
  | zero => intro i tr h; cases h
  | succ fuel ih =>
    intro i tr h
    unfold extractGo at h
    split at h
    · rename_i target len heq
      rcases List.mem_cons.mp h with he | hmem
      · subst he
        exact matchAt_target_ne heq
      · exact ih _ tr hmem
    · split at h
      · exact ih _ tr h
      · cases h

theorem stepTransitions_target_ne (s : RawStep) :
    ∀ tr ∈ stepTransitions s, tr.targetKey ≠ "" := by
  intro tr h
  exact extractGo_target_ne _ _ _ tr h

theorem addTransStep_arr (k : String) (st : StepScan) (tr : TextTrans) :
    (addTransStep k st tr).arr
      = if tr.targetKey = "" ∨ st.arr.any (fun e => e.1 = tr.targetKey) then st.arr
        else st.arr ++ [(tr.targetKey, tr.label)] := by
  unfold addTransStep
  by_cases h0 : tr.targetKey = ""
  · simp [h0]
  · cases hc : st.nodeIds.contains tr.targetKey <;>
      cases ha : st.arr.any (fun e => e.1 = tr.targetKey) <;>
      simp [h0, hc, ha]

theorem addTransStep_edges (k : String) (st : StepScan) (tr : TextTrans) :
    (addTransStep k st tr).edges
      = if tr.targetKey = "" ∨ st.arr.any (fun e => e.1 = tr.targetKey) then st.edges
        else st.edges ++ [⟨k, tr.targetKey, tr.label⟩] := by
  unfold addTransStep
  by_cases h0 : tr.targetKey = ""
  · simp [h0]
  · cases hc : st.nodeIds.contains tr.targetKey <;>
      cases ha : st.arr.any (fun e => e.1 = tr.targetKey) <;>
      simp [h0, hc, ha]

theorem scan_edges_eq (k : String) :
    ∀ (trs : List TextTrans) (st : StepScan),
      (trs.foldl (addTransStep k) st).edges
        = st.edges ++ (dedupTargets (st.arr.map Prod.fst) trs).map
            (fun tr => (⟨k, tr.targetKey, tr.label⟩ : Edge3)) := by
  intro trs
  induction trs with
  | nil => intro st; simp [dedupTargets]
  | cons tr rest ih =>
    intro st
    simp only [List.foldl_cons, dedupTargets]
    have hany : ∀ (l : List (String × String)),
        ((l.map Prod.fst).any fun x => x = tr.targetKey)
          = l.any (fun e => e.1 = tr.targetKey) := by
      intro l
      induction l with
      | nil => rfl
      | cons p ps ihl => simp only [List.map_cons, List.any_cons, ihl]
    have hseen : ((st.arr.map Prod.fst).any fun x => x = tr.targetKey)
        = st.arr.any (fun e => e.1 = tr.targetKey) := hany st.arr
    by_cases h0 : tr.targetKey = ""
    · rw [if_pos h0, ih]
      have harr : (addTransStep k st tr).arr = st.arr := by
        rw [addTransStep_arr, if_pos (Or.inl h0)]
      have hedge : (addTransStep k st tr).edges = st.edges := by
        rw [addTransStep_edges, if_pos (Or.inl h0)]
      rw [harr, hedge]
    · rw [if_neg h0, hseen]
      by_cases ha : st.arr.any (fun e => e.1 = tr.targetKey) = true
      · rw [if_pos ha, ih]
        have harr : (addTransStep k st tr).arr = st.arr := by
          rw [addTransStep_arr, if_pos (Or.inr ha)]
        have hedge : (addTransStep k st tr).edges = st.edges := by
          rw [addTransStep_edges, if_pos (Or.inr ha)]
        rw [harr, hedge]
      · rw [if_neg (by simpa using ha), ih]
        have hcond : ¬ (tr.targetKey = "" ∨
            st.arr.any (fun e => e.1 = tr.targetKey) = true) := by
          rintro (h | h)
          · exact h0 h
          · exact ha h
        have harr : (addTransStep k st tr).arr
            = st.arr ++ [(tr.targetKey, tr.label)] := by
          rw [addTransStep_arr, if_neg hcond]
        have hedge : (addTransStep k st tr).edges
            = st.edges ++ [⟨k, tr.targetKey, tr.label⟩] := by
          rw [addTransStep_edges, if_neg hcond]
        rw [harr, hedge]
        simp


theorem addTransStep_nodes (k : String) (st : StepScan) (tr : TextTrans) :
    (addTransStep k st tr).nodes
      = if tr.targetKey = "" ∨ st.nodeIds.contains tr.targetKey then st.nodes
        else st.nodes ++ [placeholderNode tr.targetKey st.nodes.length] := by
  unfold addTransStep
  by_cases h0 : tr.targetKey = ""
  · simp [h0]
  · cases hc : st.nodeIds.contains tr.targetKey <;>
      cases ha : st.arr.any (fun e => e.1 = tr.targetKey) <;>
      simp [h0, hc, ha]

theorem addTransStep_nodeIds (k : String) (st : StepScan) (tr : TextTrans) :
    (addTransStep k st tr).nodeIds
      = if tr.targetKey = "" ∨ st.nodeIds.contains tr.targetKey then st.nodeIds
        else st.nodeIds ++ [tr.targetKey] := by
  unfold addTransStep
  by_cases h0 : tr.targetKey = ""
  · simp [h0]
  · cases hc : st.nodeIds.contains tr.targetKey <;>
      cases ha : st.arr.any (fun e => e.1 = tr.targetKey) <;>
      simp [h0, hc, ha]

theorem scan_invariants (k : String) :
    ∀ (trs : List TextTrans) (st : StepScan),
      st.nodeIds = st.nodes.map (fun n => n.id) →
      (trs.foldl (addTransStep k) st).nodeIds
        = (trs.foldl (addTransStep k) st).nodes.map (fun n => n.id)
      ∧ (∀ n ∈ (trs.foldl (addTransStep k) st).nodes, n ∈ st.nodes ∨
          (n.title = "Шаг " ++ n.id ∧ n.realType = "action" ∧
            n.description = ""))
      ∧ (∀ x ∈ st.nodeIds, x ∈ (trs.foldl (addTransStep k) st).nodeIds)
      ∧ (∀ tr ∈ trs, tr.targetKey ≠ "" →
          tr.targetKey ∈ (trs.foldl (addTransStep k) st).nodeIds) := by
  intro trs
  induction trs with
  | nil =>
    intro st h1
    exact ⟨h1, fun n hn => Or.inl hn, fun x hx => hx, fun tr htr => absurd htr
      (by simp)⟩
  | cons tr rest ih =>
    intro st h1
    have hnodes := addTransStep_nodes k st tr
    have hids := addTransStep_nodeIds k st tr
    have h1' : (addTransStep k st tr).nodeIds
        = (addTransStep k st tr).nodes.map (fun n => n.id) := by
      rw [hnodes, hids]
      by_cases hcond : tr.targetKey = "" ∨ st.nodeIds.contains tr.targetKey
      · rw [if_pos hcond, if_pos hcond]; exact h1
      · rw [if_neg hcond, if_neg hcond]
        simp [h1, placeholderNode]
    obtain ⟨g1, g2, g3, g4⟩ := ih (addTransStep k st tr) h1'
    simp only [List.foldl_cons]
    refine ⟨g1, ?_, ?_, ?_⟩
    · intro n hn
      rcases g2 n hn with hmem | hshape
      · rw [hnodes] at hmem
        by_cases hcond : tr.targetKey = "" ∨ st.nodeIds.contains tr.targetKey
        · rw [if_pos hcond] at hmem; exact Or.inl hmem
        · rw [if_neg hcond] at hmem
          rcases List.mem_append.mp hmem with hm | hm
          · exact Or.inl hm
          · simp only [List.mem_singleton] at hm
            subst hm
            exact Or.inr ⟨rfl, rfl, rfl⟩
      · exact Or.inr hshape
    · intro x hx
      refine g3 x ?_
      rw [hids]
      by_cases hcond : tr.targetKey = "" ∨ st.nodeIds.contains tr.targetKey
      · rw [if_pos hcond]; exact hx
      · rw [if_neg hcond]; exact List.mem_append.mpr (Or.inl hx)
    · intro u hu hune
      rcases List.mem_cons.mp hu with he | hm
      · subst he
        refine g3 u.targetKey ?_
        rw [hids]
        by_cases hcond : u.targetKey = "" ∨ st.nodeIds.contains u.targetKey
        · rw [if_pos hcond]
          rcases hcond with h | h
          · exact absurd h hune
          · simpa using h
        · rw [if_neg hcond]
          exact List.mem_append.mpr (Or.inr (by simp))
      · exact g4 u hm hune


theorem processStep_nodes_inv (st : ImportState) (step : RawStep)
    (h1 : st.nodeIds = st.nodes.map (fun n => n.id)) :
    (processStep st step).nodeIds
      = (processStep st step).nodes.map (fun n => n.id)
    ∧ (∀ n ∈ (processStep st step).nodes, n ∈ st.nodes ∨
        (n.title = "Шаг " ++ n.id ∧ n.realType = "action" ∧ n.description = ""))
    ∧ (∀ x ∈ st.nodeIds, x ∈ (processStep st step).nodeIds)
    ∧ (∀ tr ∈ stepTransitions step, tr.targetKey ≠ "" →
        tr.targetKey ∈ (processStep st step).nodeIds) := by
  simp only [processStep]
  by_cases hE : (stepTransitions step).isEmpty = true
  · rw [if_pos hE]
    refine ⟨h1, fun n hn => Or.inl hn, fun x hx => hx, fun tr htr => ?_⟩
    rw [List.isEmpty_iff] at hE
    rw [hE] at htr
    cases htr
  · rw [if_neg hE]
    have := scan_invariants step.key (stepTransitions step)
      ⟨st.nodes, st.nodeIds,
        (mapGet st.outgoingByFrom step.key).getD [], st.explicitEdges⟩ h1
    exact ⟨this.1, this.2.1, this.2.2.1, this.2.2.2⟩

theorem process_nodes_inv (steps : List RawStep) :
    ∀ st : ImportState, st.nodeIds = st.nodes.map (fun n => n.id) →
      (steps.foldl processStep st).nodeIds
        = (steps.foldl processStep st).nodes.map (fun n => n.id)
      ∧ (∀ n ∈ (steps.foldl processStep st).nodes, n ∈ st.nodes ∨
          (n.title = "Шаг " ++ n.id ∧ n.realType = "action" ∧
            n.description = ""))
      ∧ (∀ x ∈ st.nodeIds, x ∈ (steps.foldl processStep st).nodeIds)
      ∧ (∀ s ∈ steps, ∀ tr ∈ stepTransitions s, tr.targetKey ≠ "" →
          tr.targetKey ∈ (steps.foldl processStep st).nodeIds) := by
  induction steps with
  | nil =>
    intro st h1
    exact ⟨h1, fun n hn => Or.inl hn, fun x hx => hx, fun s hs => (by cases hs)⟩
  | cons s rest ih =>
    intro st h1
    obtain ⟨p1, p2, p3, p4⟩ := processStep_nodes_inv st s h1
    obtain ⟨g1, g2, g3, g4⟩ := ih (processStep st s) p1
    simp only [List.foldl_cons]
    refine ⟨g1, ?_, ?_, ?_⟩
    · intro n hn
      rcases g2 n hn with hmem | hshape
      · exact p2 n hmem
      · exact Or.inr hshape
    · intro x hx
      exact g3 x (p3 x hx)
    · intro u hu tr htr hne
      rcases List.mem_cons.mp hu with he | hm
      · subst he
        exact g3 _ (p4 tr htr hne)
      · exact g4 u hm tr htr hne

theorem buildNodes_ids (steps : List RawStep) :
    (buildNodes steps).map (fun n => n.id) = steps.map RawStep.key := by
  unfold buildNodes
  rw [List.map_map]
  have h : ((fun n => n.id) ∘ (fun p : Nat × RawStep =>
      let realType :=
        if p.1 = 0 then "start"
        else if p.1 = steps.length - 1 then "end"
        else if condKeyword p.2.title then "condition"
        else "action"
      (⟨p.2.key, p.2.title, p.2.description, realType,
        100 + p.1 * 60, 80 + p.1 * 30⟩ : Node)))
      = fun p : Nat × RawStep => p.2.key := rfl
  rw [h, show (fun p : Nat × RawStep => p.2.key)
      = RawStep.key ∘ Prod.snd from rfl, ← List.map_map, List.enum_map_snd]

theorem process_explicit_aux :
    ∀ (steps : List RawStep) (st : ImportState),
      (steps.map RawStep.key).Nodup →
      (∀ s ∈ steps, mapGet st.outgoingByFrom s.key = none) →
      ((steps.foldl processStep st).explicitEdges
        = st.explicitEdges ++ steps.flatMap (fun s =>
            (dedupTargets [] (stepTransitions s)).map
              (fun tr => (⟨s.key, tr.targetKey, tr.label⟩ : Edge3)))
      ∧ (∀ k, mapGet (steps.foldl processStep st).outgoingByFrom k = none ↔
          (mapGet st.outgoingByFrom k = none ∧
            ∀ s ∈ steps, s.key = k → stepTransitions s = []))) := by
  intro steps
  induction steps with
  | nil => intro st _ _; simp
  | cons s rest ih =>
    intro st hnd hfresh
    simp only [List.map_cons, List.nodup_cons] at hnd
    simp only [List.foldl_cons]
    by_cases hE : (stepTransitions s).isEmpty = true
    · have hid : processStep st s = st := by
        simp only [processStep, hE, if_true]
      rw [List.isEmpty_iff] at hE
      rw [hid]
      obtain ⟨e1, e2⟩ := ih st hnd.2
        (fun t ht => hfresh t (List.mem_cons_of_mem s ht))
      refine ⟨?_, ?_⟩
      · rw [e1, List.flatMap_cons, hE]
        simp [dedupTargets]
      · intro k
        rw [e2 k]
        constructor
        · rintro ⟨ha, hb⟩
          refine ⟨ha, ?_⟩
          intro u hu huk
          rcases List.mem_cons.mp hu with heq | hm
          · subst heq; exact hE
          · exact hb u hm huk
        · rintro ⟨ha, hb⟩
          exact ⟨ha, fun u hu huk => hb u (List.mem_cons_of_mem s hu) huk⟩
    · have harr0 : (mapGet st.outgoingByFrom s.key).getD [] = [] := by
        rw [hfresh s (List.mem_cons_self s rest)]
        rfl
      have hps_edges : (processStep st s).explicitEdges
          = st.explicitEdges ++ (dedupTargets [] (stepTransitions s)).map
              (fun tr => (⟨s.key, tr.targetKey, tr.label⟩ : Edge3)) := by
        simp only [processStep]
        rw [if_neg hE, scan_edges_eq]
        simp only [harr0, List.map_nil]
      have hps_out : (processStep st s).outgoingByFrom
          = mapSet st.outgoingByFrom s.key
              ((stepTransitions s).foldl (addTransStep s.key)
                ⟨st.nodes, st.nodeIds,
                  (mapGet st.outgoingByFrom s.key).getD [],
                  st.explicitEdges⟩).arr := by
        simp only [processStep]
        rw [if_neg hE]
      have hfresh' : ∀ t ∈ rest, mapGet (processStep st s).outgoingByFrom t.key
          = none := by
        intro t ht
        rw [hps_out, mapGet_mapSet_ne]
        · exact hfresh t (List.mem_cons_of_mem s ht)
        · intro he
          exact hnd.1 (he ▸ List.mem_map.mpr ⟨t, ht, rfl⟩)
      obtain ⟨e1, e2⟩ := ih (processStep st s) hnd.2 hfresh'
      refine ⟨?_, ?_⟩
      · rw [e1, hps_edges, List.flatMap_cons, List.append_assoc]
      · intro k
        rw [e2 k]
        by_cases hk : k = s.key
        · subst hk
          rw [hps_out, mapGet_mapSet_self]
          constructor
          · rintro ⟨h, _⟩; cases h
          · rintro ⟨_, hb⟩
            have := hb s (List.mem_cons_self s rest) rfl
            rw [← List.isEmpty_iff] at this
            exact absurd this hE
        · rw [hps_out, mapGet_mapSet_ne _ _ hk]
          constructor
          · rintro ⟨ha, hb⟩
            refine ⟨ha, ?_⟩
            intro u hu huk
            rcases List.mem_cons.mp hu with heq | hm
            · subst heq; exact absurd huk.symm hk
            · exact hb u hm huk
          · rintro ⟨ha, hb⟩
            exact ⟨ha, fun u hu huk => hb u (List.mem_cons_of_mem s hu) huk⟩


/-- **C8.** For well-formed (pairwise distinct) step keys: every transition
target `N` mined from some step's free text that is not an existing step key
ends up as a node with key `N`, type `action`, title `"Шаг N"` and empty
description; and each source's explicit edges are its extracted transitions
deduplicated by target, keeping the label of the first match found. -/
theorem tz_C8_placeholder_and_dedup (steps : List RawStep)
    (hnd : (steps.map RawStep.key).Nodup) :
    (∀ N : String,
      (∃ s ∈ steps, ∃ tr ∈ stepTransitions s, tr.targetKey = N) →
      N ∉ steps.map RawStep.key →
      ∃ n ∈ (processTransitions steps).nodes,
        n.id = N ∧ n.title = "Шаг " ++ N ∧ n.realType = "action" ∧
          n.description = "")
    ∧ (processTransitions steps).explicitEdges
        = steps.flatMap (fun s => (dedupTargets [] (stepTransitions s)).map
            (fun tr => (⟨s.key, tr.targetKey, tr.label⟩ : Edge3))) := by
  have hPT : processTransitions steps = steps.foldl processStep
      ⟨buildNodes steps, (buildNodes steps).map (fun n => n.id), [], []⟩ := rfl
  constructor
  · intro N hex hNk
    obtain ⟨s, hs, tr, htr, htrN⟩ := hex
    have hNne : N ≠ "" := htrN ▸ stepTransitions_target_ne s tr htr
    obtain ⟨g1, g2, g3, g4⟩ := process_nodes_inv steps
      ⟨buildNodes steps, (buildNodes steps).map (fun n => n.id), [], []⟩ rfl
    have hNin : N ∈ (processTransitions steps).nodeIds := by
      rw [hPT]
      have := g4 s hs tr htr (by rw [htrN]; exact hNne)
      rw [htrN] at this
      exact this
    rw [hPT, g1] at hNin
    obtain ⟨n, hn, hid⟩ := List.mem_map.mp hNin
    rcases g2 n hn with hmem | hshape
    · exfalso
      apply hNk
      rw [← hid, ← buildNodes_ids]
      exact List.mem_map.mpr ⟨n, hmem, rfl⟩
    · exact ⟨n, by rw [hPT]; exact hn, hid, by rw [hshape.1, hid],
        hshape.2.1, hshape.2.2⟩
  · have := process_explicit_aux steps
      ⟨buildNodes steps, (buildNodes steps).map (fun n => n.id), [], []⟩ hnd
      (fun t ht => rfl)
    rw [hPT]
    simpa using this.1

/-- Witness for C8: one step whose developer note jumps to the unknown step
`"99"`. -/
theorem tz_C8_placeholder_and_dedup_witness :
    (∀ N : String,
      (∃ s ∈ ([⟨"1", "A", "", 0, "", "", "переход к шагу 99"⟩] : List RawStep),
        ∃ tr ∈ stepTransitions s, tr.targetKey = N) →
      N ∉ ([⟨"1", "A", "", 0, "", "", "переход к шагу 99"⟩] : List RawStep).map
          RawStep.key →
      ∃ n ∈ (processTransitions
          [⟨"1", "A", "", 0, "", "", "переход к шагу 99"⟩]).nodes,
        n.id = N ∧ n.title = "Шаг " ++ N ∧ n.realType = "action" ∧
          n.description = "")
    ∧ (processTransitions
          [⟨"1", "A", "", 0, "", "", "переход к шагу 99"⟩]).explicitEdges
        = ([⟨"1", "A", "", 0, "", "", "переход к шагу 99"⟩] : List RawStep).flatMap
            (fun s => (dedupTargets [] (stepTransitions s)).map
              (fun tr => (⟨s.key, tr.targetKey, tr.label⟩ : Edge3))) :=
  tz_C8_placeholder_and_dedup [⟨"1", "A", "", 0, "", "", "переход к шагу 99"⟩]
    (by decide)

/-! ## C7: edge synthesis policy -/

theorem any_key_iff_mapGet {κ α : Type} [DecidableEq κ]
    (m : List (κ × α)) (k : κ) :
    (m.any (fun p => p.1 = k) = true) ↔ mapGet m k ≠ none := by
  rw [Ne, mapGet_eq_none_iff]
  simp [List.any_eq_true]

theorem eq_of_append_dash :
    ∀ {l1 l2 t1 t2 : List Char}, '-' ∉ l1 → '-' ∉ l2 →
      l1 ++ '-' :: t1 = l2 ++ '-' :: t2 → l1 = l2 ∧ t1 = t2 := by
  intro l1
  induction l1 with
  | nil =>
    intro l2 t1 t2 _ h2 h
    cases l2 with
    | nil =>
      refine ⟨rfl, ?_⟩
      simpa using h
    | cons c l2' =>
      exfalso
      simp only [List.nil_append, List.cons_append] at h
      have hc : c = '-' := ((List.cons.inj h).1).symm
      exact h2 (hc ▸ List.mem_cons_self c l2')
  | cons a l1' ih =>
    intro l2 t1 t2 h1 h2 h
    cases l2 with
    | nil =>
      exfalso
      simp only [List.nil_append, List.cons_append] at h
      have ha : a = '-' := (List.cons.inj h).1
      exact h1 (ha ▸ List.mem_cons_self a l1')
    | cons b l2' =>
      simp only [List.cons_append] at h
      have hab := (List.cons.inj h).1
      have ht := (List.cons.inj h).2
      have hr := ih (fun hm => h1 (List.mem_cons_of_mem a hm))
        (fun hm => h2 (List.mem_cons_of_mem b hm)) ht
      exact ⟨by rw [hab, hr.1], hr.2⟩

theorem string_of_data {s t : String} (h : s.data = t.data) : s = t := by
  cases s
  cases t
  exact congrArg String.mk h

theorem append_marker_inj {x y x' y' : String} (hx : '-' ∉ x.data)
    (hx' : '-' ∉ x'.data) (h : x ++ "->" ++ y = x' ++ "->" ++ y') :
    x = x' ∧ y = y' := by
  have hm : ("->" : String).data = ['-', '>'] := rfl
  have hd := congrArg String.data h
  rw [String.data_append, String.data_append, String.data_append,
    String.data_append, hm] at hd
  simp only [List.append_assoc, List.cons_append, List.nil_append] at hd
  obtain ⟨h1, h2⟩ := eq_of_append_dash hx hx' hd
  exact ⟨string_of_data h1, string_of_data (List.cons.inj h2).2⟩

theorem mem_consecutivePairs {steps : List RawStep} {q : RawStep × RawStep}
    (h : q ∈ consecutivePairs steps) : q.1 ∈ steps ∧ q.2 ∈ steps := by
  unfold consecutivePairs at h
  have h' := List.of_mem_zip (show (q.1, q.2) ∈ steps.zip steps.tail from h)
  exact ⟨h'.1, (List.tail_sublist steps).subset h'.2⟩

theorem pairs_firstkey_pairwise :
    ∀ {steps : List RawStep}, (steps.map RawStep.key).Nodup →
      (consecutivePairs steps).Pairwise (fun q q' => q.1.key ≠ q'.1.key) := by
  intro steps
  induction steps with
  | nil => intro _; exact List.Pairwise.nil
  | cons s rest ih =>
    intro hnd
    cases rest with
    | nil => exact List.Pairwise.nil
    | cons t rest2 =>
      simp only [List.map_cons, List.nodup_cons] at hnd
      have hcp : consecutivePairs (s :: t :: rest2)
          = (s, t) :: consecutivePairs (t :: rest2) := rfl
      rw [hcp]
      refine List.Pairwise.cons ?_ (ih (by simpa using hnd.2))
      intro q' hq' he
      have hq1 := (mem_consecutivePairs hq').1
      exact hnd.1 (by rw [he]; exact List.mem_map.mpr ⟨q'.1, hq1, rfl⟩)

theorem process_fold_id :
    ∀ (steps : List RawStep) (st : ImportState),
      (∀ s ∈ steps, stepTransitions s = []) →
      steps.foldl processStep st = st := by
  intro steps
  induction steps with
  | nil => intro st _; rfl
  | cons s rest ih =>
    intro st h
    simp only [List.foldl_cons]
    have hid : processStep st s = st := by
      simp only [processStep]
      rw [if_pos]
      rw [List.isEmpty_iff]
      exact h s (List.mem_cons_self s rest)
    rw [hid]
    exact ih st (fun t ht => h t (List.mem_cons_of_mem s ht))


theorem fallback_fold (out : List (String × List (String × String))) :
    ∀ (pairs : List (RawStep × RawStep)) (acc : List FlowEdge)
      (keyset : List String),
      (∀ q ∈ pairs, ((out.any fun p => p.1 = q.1.key) = true ↔
        stepTransitions q.1 ≠ [])) →
      (∀ q ∈ pairs, stepTransitions q.1 = [] →
        ¬ (q.1.key ++ "->" ++ q.2.key) ∈ keyset) →
      pairs.Pairwise (fun q q' =>
        q.1.key ++ "->" ++ q.2.key ≠ q'.1.key ++ "->" ++ q'.2.key) →
      (pairs.foldl (fun acc q =>
          let ek := q.1.key ++ "->" ++ q.2.key
          if out.any (fun p => p.1 = q.1.key) then acc
          else if acc.2.contains ek then acc
          else (acc.1 ++ [(⟨ek, q.1.key, q.2.key, none⟩ : FlowEdge)],
                acc.2 ++ [ek]))
        (acc, keyset)).1
        = acc ++ pairs.filterMap (fun q =>
            if stepTransitions q.1 = [] then
              some ⟨q.1.key ++ "->" ++ q.2.key, q.1.key, q.2.key, none⟩
            else none) := by
  intro pairs
  induction pairs with
  | nil => intro acc keyset _ _ _; simp
  | cons q rest ih =>
    intro acc keyset hcond h1 h2
    have hq := hcond q (List.mem_cons_self q rest)
    cases h2 with
    | cons hhead htail =>
      simp only [List.foldl_cons, List.filterMap_cons]
      by_cases ho : (out.any fun p => p.1 = q.1.key) = true
      · have htrs : stepTransitions q.1 ≠ [] := hq.mp ho
        rw [if_neg htrs]
        simp only [ho, if_true]
        exact ih acc keyset
          (fun u hu => hcond u (List.mem_cons_of_mem q hu))
          (fun u hu => h1 u (List.mem_cons_of_mem q hu)) htail
      · have htrs : stepTransitions q.1 = [] := by
          by_contra hne
          exact ho (hq.mpr hne)
        have hek := h1 q (List.mem_cons_self q rest) htrs
        have hcontains : keyset.contains (q.1.key ++ "->" ++ q.2.key) = false := by
          simpa using hek
        rw [if_pos htrs]
        simp only [ho, hcontains, Bool.false_eq_true, if_false]
        have hstep := ih
          (acc ++ [⟨q.1.key ++ "->" ++ q.2.key, q.1.key, q.2.key, none⟩])
          (keyset ++ [q.1.key ++ "->" ++ q.2.key])
          (fun u hu => hcond u (List.mem_cons_of_mem q hu))
          (fun u hu hutrs hmem => by
            rcases List.mem_append.mp hmem with hm | hm
            · exact h1 u (List.mem_cons_of_mem q hu) hutrs hm
            · simp only [List.mem_singleton] at hm
              exact hhead u hu hm.symm) htail
        rw [List.append_assoc, List.singleton_append] at hstep
        exact hstep

/-- **C7, counterexample.** With step keys containing `"->"`, a fallback
edge's key string can coincide with an earlier fallback's key string: here
step `"x1->y1"` has zero extracted outgoing transitions, yet receives no
implicit successor edge, because the earlier fallback `"x1" → "y1->z1"` took
the string key `"x1->y1->z1"` first. -/
theorem tz_C7_counterexample :
    stepTransitions ⟨"x1->y1", "C", "", 2, "", "", ""⟩ = []
    ∧ importEdges [⟨"x1", "A", "", 0, "", "", ""⟩,
        ⟨"y1->z1", "B", "", 1, "", "", "переход к шагу 99"⟩,
        ⟨"x1->y1", "C", "", 2, "", "", ""⟩,
        ⟨"z1", "D", "", 3, "", "", ""⟩]
      = [⟨"y1->z1->99-0", "y1->z1", "99", none⟩,
         ⟨"x1->y1->z1", "x1", "y1->z1", none⟩]
    ∧ (¬ ∃ e ∈ importEdges [⟨"x1", "A", "", 0, "", "", ""⟩,
        ⟨"y1->z1", "B", "", 1, "", "", "переход к шагу 99"⟩,
        ⟨"x1->y1", "C", "", 2, "", "", ""⟩,
        ⟨"z1", "D", "", 3, "", "", ""⟩], e.source = "x1->y1") :=
  ⟨by decide, by decide, by decide⟩

/-- **C7, amended.** For pairwise distinct step keys not containing the
character `-` (so that the edge-key strings cannot collide): if no step's
text yields a transition, the importer emits exactly the linear chain over
consecutive sorted steps; if at least one does, it emits exactly the
extracted (per-source target-deduplicated) transitions plus a fallback edge
`step[i] → step[i+1]` exactly for the steps `i` with zero extracted outgoing
transitions. -/
theorem tz_C7_edge_synthesis (steps : List RawStep)
    (hnd : (steps.map RawStep.key).Nodup)
    (hdash : ∀ s ∈ steps, '-' ∉ s.key.data) :
    ((∀ s ∈ steps, stepTransitions s = []) →
      importEdges steps = chainEdges steps)
    ∧ ((∃ s ∈ steps, stepTransitions s ≠ []) →
        importEdges steps
          = explicitFlowEdges (processTransitions steps).explicitEdges
            ++ (consecutivePairs steps).filterMap (fun q =>
                if stepTransitions q.1 = [] then
                  some ⟨q.1.key ++ "->" ++ q.2.key, q.1.key, q.2.key, none⟩
                else none)
        ∧ (processTransitions steps).explicitEdges
            = steps.flatMap (fun s =>
                (dedupTargets [] (stepTransitions s)).map
                  (fun tr => (⟨s.key, tr.targetKey, tr.label⟩ : Edge3)))) := by
  have hPT : processTransitions steps = steps.foldl processStep
      ⟨buildNodes steps, (buildNodes steps).map (fun n => n.id), [], []⟩ := rfl
  have haux := process_explicit_aux steps
    ⟨buildNodes steps, (buildNodes steps).map (fun n => n.id), [], []⟩ hnd
    (fun t ht => rfl)
  have hEchar : (processTransitions steps).explicitEdges
      = steps.flatMap (fun s => (dedupTargets [] (stepTransitions s)).map
          (fun tr => (⟨s.key, tr.targetKey, tr.label⟩ : Edge3))) := by
    rw [hPT]
    simpa using haux.1
  constructor
  · intro hall
    have hfold : processTransitions steps
        = ⟨buildNodes steps, (buildNodes steps).map (fun n => n.id), [], []⟩ := by
      rw [hPT]
      exact process_fold_id steps _ hall
    unfold importEdges
    rw [hfold]
    rfl
  · intro hex
    refine ⟨?_, hEchar⟩
    obtain ⟨s0, hs0, htrs0⟩ := hex
    have hEne : (processTransitions steps).explicitEdges ≠ [] := by
      rw [hEchar]
      cases htrs : stepTransitions s0 with
      | nil => exact absurd htrs htrs0
      | cons tr0 rest0 =>
        intro hnil
        have htr0ne : tr0.targetKey ≠ "" :=
          stepTransitions_target_ne s0 tr0 (htrs ▸ List.mem_cons_self tr0 rest0)
        have hd : tr0 ∈ dedupTargets [] (stepTransitions s0) := by
          rw [htrs]
          simp only [dedupTargets, if_neg htr0ne]
          simp
        have hmem : (⟨s0.key, tr0.targetKey, tr0.label⟩ : Edge3)
            ∈ steps.flatMap (fun s => (dedupTargets [] (stepTransitions s)).map
                (fun tr => (⟨s.key, tr.targetKey, tr.label⟩ : Edge3))) :=
          List.mem_flatMap.mpr ⟨s0, hs0, List.mem_map.mpr ⟨tr0, hd, rfl⟩⟩
        rw [hnil] at hmem
        cases hmem
    unfold importEdges buildEdges
    rw [if_neg (by simpa [List.isEmpty_iff] using hEne)]
    refine congrArg _ ?_
    rw [fallback_fold (processTransitions steps).outgoingByFrom
      (consecutivePairs steps) []
      ((processTransitions steps).explicitEdges.map
        (fun e => e.fromKey ++ "->" ++ e.toKey)) ?_ ?_ ?_]
    · simp
    · intro q hq
      have hq1 : q.1 ∈ steps := (mem_consecutivePairs hq).1
      rw [any_key_iff_mapGet, Ne, hPT, haux.2 q.1.key]
      constructor
      · intro hna htrs
        apply hna
        refine ⟨rfl, ?_⟩
        intro u hu huk
        have : u = q.1 := List.inj_on_of_nodup_map hnd hu hq1 huk
        rw [this]
        exact htrs
      · rintro htrs ⟨_, hall⟩
        exact htrs (hall q.1 hq1 rfl)
    · intro q hq htrs hmemk
      have hq1 : q.1 ∈ steps := (mem_consecutivePairs hq).1
      obtain ⟨e, heE, heek⟩ := List.mem_map.mp hmemk
      rw [hEchar] at heE
      obtain ⟨u, hu, he2⟩ := List.mem_flatMap.mp heE
      obtain ⟨tr, htr, he3⟩ := List.mem_map.mp he2
      rw [← he3] at heek
      have hune : stepTransitions u ≠ [] := by
        intro h0
        rw [h0] at htr
        simp [dedupTargets] at htr
      have hsplit := append_marker_inj (hdash u hu) (hdash q.1 hq1) heek
      have : u = q.1 := List.inj_on_of_nodup_map hnd hu hq1 hsplit.1
      rw [this] at hune
      exact hune htrs
    · refine List.Pairwise.imp_of_mem ?_ (pairs_firstkey_pairwise hnd)
      intro a b ha hb hne he
      exact hne (append_marker_inj (hdash a.1 (mem_consecutivePairs ha).1)
        (hdash b.1 (mem_consecutivePairs hb).1) he).1

/-- Witness for the amended C7: three steps where the first jumps to step
`"3"`, so step `"2"` keeps its linear fallback and step `"1"` gets none. -/
theorem tz_C7_edge_synthesis_witness :
    ((∀ s ∈ ([⟨"1", "A", "", 0, "", "", "переход к шагу 3"⟩,
        ⟨"2", "B", "", 1, "", "", ""⟩,
        ⟨"3", "C", "", 2, "", "", ""⟩] : List RawStep),
        stepTransitions s = []) →
      importEdges [⟨"1", "A", "", 0, "", "", "переход к шагу 3"⟩,
        ⟨"2", "B", "", 1, "", "", ""⟩, ⟨"3", "C", "", 2, "", "", ""⟩]
        = chainEdges [⟨"1", "A", "", 0, "", "", "переход к шагу 3"⟩,
            ⟨"2", "B", "", 1, "", "", ""⟩, ⟨"3", "C", "", 2, "", "", ""⟩])
    ∧ ((∃ s ∈ ([⟨"1", "A", "", 0, "", "", "переход к шагу 3"⟩,
        ⟨"2", "B", "", 1, "", "", ""⟩,
        ⟨"3", "C", "", 2, "", "", ""⟩] : List RawStep),
        stepTransitions s ≠ []) →
        importEdges [⟨"1", "A", "", 0, "", "", "переход к шагу 3"⟩,
          ⟨"2", "B", "", 1, "", "", ""⟩, ⟨"3", "C", "", 2, "", "", ""⟩]
          = explicitFlowEdges (processTransitions
              [⟨"1", "A", "", 0, "", "", "переход к шагу 3"⟩,
               ⟨"2", "B", "", 1, "", "", ""⟩,
               ⟨"3", "C", "", 2, "", "", ""⟩]).explicitEdges
            ++ (consecutivePairs [⟨"1", "A", "", 0, "", "", "переход к шагу 3"⟩,
                ⟨"2", "B", "", 1, "", "", ""⟩,
                ⟨"3", "C", "", 2, "", "", ""⟩]).filterMap (fun q =>
                if stepTransitions q.1 = [] then
                  some ⟨q.1.key ++ "->" ++ q.2.key, q.1.key, q.2.key, none⟩
                else none)
        ∧ (processTransitions [⟨"1", "A", "", 0, "", "", "переход к шагу 3"⟩,
            ⟨"2", "B", "", 1, "", "", ""⟩,
            ⟨"3", "C", "", 2, "", "", ""⟩]).explicitEdges
            = ([⟨"1", "A", "", 0, "", "", "переход к шагу 3"⟩,
                ⟨"2", "B", "", 1, "", "", ""⟩,
                ⟨"3", "C", "", 2, "", "", ""⟩] : List RawStep).flatMap (fun s =>
                (dedupTargets [] (stepTransitions s)).map
                  (fun tr => (⟨s.key, tr.targetKey, tr.label⟩ : Edge3)))) :=
  tz_C7_edge_synthesis
    [⟨"1", "A", "", 0, "", "", "переход к шагу 3"⟩,
     ⟨"2", "B", "", 1, "", "", ""⟩, ⟨"3", "C", "", 2, "", "", ""⟩]
    (by decide) (by decide)

end TzWeb
